import Mathlib

/-!
Verification of the `mcp_host` package against its specification.

The Python sources under `mcp-host/mcp_host/` are shallowly embedded:
dictionaries become association lists, `OrderedDict` becomes a list kept
in least-recently-used-first order, `time.time()` floats become rationals,
and code that can raise becomes `Option`/`Except`-valued.  Each embedded
definition mirrors one function of the source and is named after it where
the names are legal Lean identifiers.
-/

namespace MCPHost

/-! ### Association-list helpers (Python `dict` / `OrderedDict`) -/

/-- Remove every binding of key `k` (a Python dict holds at most one). -/
def removeKey (l : List (String × α)) (k : String) : List (String × α) :=
  l.filter (fun p => p.1 != k)

/-- Keys of an association list, in order. -/
def keysOf (l : List (String × α)) : List String :=
  l.map Prod.fst

@[simp] theorem keysOf_nil : keysOf ([] : List (String × α)) = [] := rfl

@[simp] theorem keysOf_cons (p : String × α) (l : List (String × α)) :
    keysOf (p :: l) = p.1 :: keysOf l := rfl

@[simp] theorem keysOf_append (l₁ l₂ : List (String × α)) :
    keysOf (l₁ ++ l₂) = keysOf l₁ ++ keysOf l₂ := by
  simp [keysOf]

@[simp] theorem removeKey_nil (k : String) :
    removeKey ([] : List (String × α)) k = [] := rfl

theorem removeKey_cons (p : String × α) (l : List (String × α)) (k : String) :
    removeKey (p :: l) k =
      if p.1 = k then removeKey l k else p :: removeKey l k := by
  by_cases h : p.1 = k <;> simp [removeKey, List.filter_cons, h]

@[simp] theorem lookup_nil (k : String) :
    ([] : List (String × α)).lookup k = none := rfl

theorem lookup_cons (p : String × α) (l : List (String × α)) (k : String) :
    (p :: l).lookup k = if k = p.1 then some p.2 else l.lookup k := by
  by_cases h : k = p.1
  · simp [List.lookup, beq_iff_eq, h]
  · rw [if_neg h]
    show (match k == p.1 with
      | true => some p.2
      | false => l.lookup k) = l.lookup k
    rw [beq_false_of_ne h]

theorem mem_keysOf_removeKey {l : List (String × α)} {k k2 : String} :
    k2 ∈ keysOf (removeKey l k) ↔ k2 ∈ keysOf l ∧ k2 ≠ k := by
  induction l with
  | nil => simp
  | cons p rest ih =>
    by_cases h : p.1 = k
    · rw [removeKey_cons, if_pos h]
      subst h
      simp only [keysOf_cons, List.mem_cons, ih]
      constructor
      · rintro ⟨hm, hne⟩; exact ⟨Or.inr hm, hne⟩
      · rintro ⟨hm | hm, hne⟩
        · exact absurd hm hne
        · exact ⟨hm, hne⟩
    · rw [removeKey_cons, if_neg h]
      simp only [keysOf_cons, List.mem_cons, ih]
      constructor
      · rintro (hm | ⟨hm, hne⟩)
        · exact ⟨Or.inl hm, by rw [hm]; exact h⟩
        · exact ⟨Or.inr hm, hne⟩
      · rintro ⟨hm | hm, hne⟩
        · exact Or.inl hm
        · exact Or.inr ⟨hm, hne⟩

theorem removeKey_sublist (l : List (String × α)) (k : String) :
    (removeKey l k).Sublist l :=
  List.filter_sublist l

theorem removeKey_eq_of_not_mem {l : List (String × α)} {k : String}
    (h : k ∉ keysOf l) : removeKey l k = l := by
  induction l with
  | nil => rfl
  | cons p rest ih =>
    simp only [keysOf_cons, List.mem_cons] at h
    push_neg at h
    rw [removeKey_cons, if_neg (fun hc => h.1 hc.symm), ih h.2]

theorem lookup_eq_none_iff {l : List (String × α)} {k : String} :
    l.lookup k = none ↔ k ∉ keysOf l := by
  induction l with
  | nil => simp
  | cons p rest ih =>
    rw [lookup_cons]
    by_cases h : k = p.1
    · simp [h]
    · simp only [if_neg h, ih, keysOf_cons, List.mem_cons]
      constructor
      · intro hn
        rintro (hc | hc)
        · exact h hc
        · exact hn hc
      · intro hn hm
        exact hn (Or.inr hm)

theorem lookup_isSome_iff {l : List (String × α)} {k : String} :
    (l.lookup k).isSome ↔ k ∈ keysOf l := by
  rw [← not_iff_not]
  simp only [Bool.not_eq_true, Option.not_isSome, Option.isNone_iff_eq_none]
  exact lookup_eq_none_iff

theorem lookup_removeKey_ne {l : List (String × α)} {k k2 : String} (h : k2 ≠ k) :
    (removeKey l k).lookup k2 = l.lookup k2 := by
  induction l with
  | nil => rfl
  | cons p rest ih =>
    by_cases hp : p.1 = k
    · rw [removeKey_cons, if_pos hp, ih, lookup_cons,
        if_neg (by rw [hp]; exact h), ]
    · rw [removeKey_cons, if_neg hp, lookup_cons, lookup_cons, ih]

theorem length_removeKey_of_mem {l : List (String × α)} {k : String}
    (hnd : (keysOf l).Nodup) (h : k ∈ keysOf l) :
    (removeKey l k).length = l.length - 1 := by
  induction l with
  | nil => simp at h
  | cons p rest ih =>
    simp only [keysOf_cons, List.nodup_cons] at hnd
    simp only [keysOf_cons, List.mem_cons] at h
    rw [removeKey_cons]
    by_cases hp : p.1 = k
    · have hkr : k ∉ keysOf rest := by rw [← hp]; exact hnd.1
      rw [if_pos hp, removeKey_eq_of_not_mem hkr]
      simp
    · rcases h with h | h
      · exact absurd h.symm hp
      · have hlen := ih hnd.2 h
        have hpos : 1 ≤ rest.length := by
          cases rest with
          | nil => simp at h
          | cons q t => simp
        rw [if_neg hp]
        simp only [List.length_cons, hlen]
        omega

/-! ### `cache.py` — TTL cache with LRU eviction

`self._cache` is an `OrderedDict`; it is embedded as a list of
key/entry pairs whose head is the least-recently-used binding and whose
last element is the most-recently-used one.  `time.time()` values and
TTLs are rationals.  `Cache.set` returns `none` exactly on the path where
the Python code would raise `StopIteration` (evicting from an empty dict,
possible only for `max_size = 0`). -/

/-- One stored entry: `{"value": ..., "created_at": ..., "ttl": ...}`. -/
structure CacheEntry where
  value : String
  created_at : ℚ
  ttl : ℚ
deriving DecidableEq

/-- The `Cache` object of `cache.py`. -/
structure Cache where
  max_size : Nat
  default_ttl : ℚ
  entries : List (String × CacheEntry)
deriving DecidableEq

/-- `Cache.__init__` with an empty store. -/
def Cache.empty (max_size : Nat) (default_ttl : ℚ) : Cache :=
  ⟨max_size, default_ttl, []⟩

/-- Keys currently stored, least-recently-used first. -/
def Cache.keys (c : Cache) : List String := keysOf c.entries

/-- Insert or replace a binding at the most-recently-used end
(dict assignment followed by `move_to_end`). -/
def touchEntry (es : List (String × CacheEntry)) (key : String) (e : CacheEntry) :
    List (String × CacheEntry) :=
  removeKey es key ++ [(key, e)]

/-- `Cache.get`: miss on absent key; expired entries are dropped;
a hit moves the key to the most-recently-used end. -/
def Cache.get (c : Cache) (now : ℚ) (key : String) : Option String × Cache :=
  match c.entries.lookup key with
  | none => (none, c)
  | some e =>
    if e.ttl < now - e.created_at then
      (none, { c with entries := removeKey c.entries key })
    else
      (some e.value, { c with entries := touchEntry c.entries key e })

/-- `Cache.set`: if at capacity and the key is new, evict the
least-recently-used (first) binding, then insert/replace at the
most-recently-used end.  `none` is the `StopIteration` raised by
`next(iter(...))` on an empty dict. -/
def Cache.set (c : Cache) (now : ℚ) (key value : String) (ttl : Option ℚ) :
    Option Cache :=
  if c.max_size ≤ c.entries.length ∧ c.entries.lookup key = none then
    match c.entries with
    | [] => none
    | _ :: tl =>
      some { c with entries := touchEntry tl key ⟨value, now, ttl.getD c.default_ttl⟩ }
  else
    some { c with entries := touchEntry c.entries key ⟨value, now, ttl.getD c.default_ttl⟩ }

/-- `Cache.invalidate`. -/
def Cache.invalidate (c : Cache) (key : String) : Cache :=
  { c with entries := removeKey c.entries key }

theorem Cache.get_eq_miss {c : Cache} {now : ℚ} {key : String}
    (hl : c.entries.lookup key = none) : c.get now key = (none, c) := by
  unfold Cache.get
  rw [hl]

theorem Cache.get_eq_expired {c : Cache} {now : ℚ} {key : String} {e : CacheEntry}
    (hl : c.entries.lookup key = some e) (hexp : e.ttl < now - e.created_at) :
    c.get now key = (none, { c with entries := removeKey c.entries key }) := by
  unfold Cache.get
  rw [hl]
  exact if_pos hexp

theorem Cache.get_eq_hit {c : Cache} {now : ℚ} {key : String} {e : CacheEntry}
    (hl : c.entries.lookup key = some e) (hexp : ¬ e.ttl < now - e.created_at) :
    c.get now key =
      (some e.value, { c with entries := touchEntry c.entries key e }) := by
  unfold Cache.get
  rw [hl]
  exact if_neg hexp

theorem Cache.set_eq_evict {c : Cache} {now : ℚ} {key value : String}
    {ttl : Option ℚ} {p : String × CacheEntry} {tl : List (String × CacheEntry)}
    (hcond : c.max_size ≤ c.entries.length ∧ c.entries.lookup key = none)
    (hes : c.entries = p :: tl) :
    c.set now key value ttl =
      some { c with entries := touchEntry tl key ⟨value, now, ttl.getD c.default_ttl⟩ } := by
  unfold Cache.set
  rw [if_pos hcond, hes]

theorem Cache.set_eq_noevict {c : Cache} {now : ℚ} {key value : String}
    {ttl : Option ℚ}
    (hcond : ¬ (c.max_size ≤ c.entries.length ∧ c.entries.lookup key = none)) :
    c.set now key value ttl =
      some { c with
        entries := touchEntry c.entries key ⟨value, now, ttl.getD c.default_ttl⟩ } := by
  unfold Cache.set
  rw [if_neg hcond]

/-- Executable `startswith` on the underlying character lists. -/
def isPrefList : List Char → List Char → Bool
  | [], _ => true
  | _ :: _, [] => false
  | a :: as, b :: bs => a = b && isPrefList as bs

/-- `str.startswith`. -/
def strStarts (s pre : String) : Bool := isPrefList pre.data s.data

/-- `Cache.invalidate_server`: drop every key beginning with
`prompt:{server}.` or `resource:{server}:`. -/
def Cache.invalidateServer (c : Cache) (server_name : String) : Cache :=
  { c with entries := c.entries.filter (fun kv =>
      !(strStarts kv.1 ("prompt:" ++ server_name ++ ".") ||
        strStarts kv.1 ("resource:" ++ server_name ++ ":"))) }

/-- `Cache.cleanup_expired`. -/
def Cache.cleanupExpired (c : Cache) (now : ℚ) : Cache :=
  { c with entries := c.entries.filter (fun kv =>
      !(decide (kv.2.ttl < now - kv.2.created_at))) }

/-- One cache operation, tagged with the `time.time()` instant at which
it runs. -/
inductive CacheOp where
  | get (now : ℚ) (key : String)
  | set (now : ℚ) (key value : String) (ttl : Option ℚ)
  | invalidate (key : String)
  | invalidateServer (name : String)
  | cleanup (now : ℚ)
deriving DecidableEq

/-- Apply one operation. -/
def Cache.applyOp (c : Cache) : CacheOp → Option Cache
  | .get now key => some (c.get now key).2
  | .set now key value ttl => c.set now key value ttl
  | .invalidate key => some (c.invalidate key)
  | .invalidateServer n => some (c.invalidateServer n)
  | .cleanup now => some (c.cleanupExpired now)

/-- Run a sequence of operations. -/
def Cache.runOps (c : Cache) : List CacheOp → Option Cache
  | [] => some c
  | op :: rest =>
    match c.applyOp op with
    | none => none
    | some c2 => c2.runOps rest

/-- Structural well-formedness: distinct keys, size within bound. -/
def Cache.WF (c : Cache) : Prop :=
  c.keys.Nodup ∧ c.entries.length ≤ c.max_size

@[simp] theorem Cache.keys_def (c : Cache) : c.keys = keysOf c.entries := rfl

theorem nodup_keysOf_of_sublist {l₁ l₂ : List (String × α)} (h : l₁.Sublist l₂)
    (hnd : (keysOf l₂).Nodup) : (keysOf l₁).Nodup :=
  (h.map Prod.fst).nodup hnd

theorem keysOf_touchEntry (es : List (String × CacheEntry)) (k : String)
    (e : CacheEntry) :
    keysOf (touchEntry es k e) = keysOf (removeKey es k) ++ [k] := by
  simp [touchEntry]

theorem nodup_touch {es : List (String × CacheEntry)} {k : String} {e : CacheEntry}
    (hnd : (keysOf es).Nodup) :
    (keysOf (touchEntry es k e)).Nodup := by
  rw [keysOf_touchEntry]
  refine List.Nodup.append (nodup_keysOf_of_sublist (removeKey_sublist es k) hnd)
    (List.nodup_singleton k) ?_
  intro x hx hks
  simp only [List.mem_singleton] at hks
  subst hks
  exact (mem_keysOf_removeKey.1 hx).2 rfl

theorem length_touchEntry_of_mem {es : List (String × CacheEntry)} {k : String}
    (e : CacheEntry) (hnd : (keysOf es).Nodup) (h : k ∈ keysOf es) :
    (touchEntry es k e).length = es.length := by
  have h1 : 1 ≤ es.length := by
    cases es with
    | nil => simp at h
    | cons p t => simp
  simp only [touchEntry, List.length_append, List.length_cons, List.length_nil]
  rw [length_removeKey_of_mem hnd h]
  omega

theorem length_touchEntry_of_not_mem {es : List (String × CacheEntry)} {k : String}
    (e : CacheEntry) (h : k ∉ keysOf es) :
    (touchEntry es k e).length = es.length + 1 := by
  simp only [touchEntry, List.length_append, List.length_cons, List.length_nil]
  rw [removeKey_eq_of_not_mem h]

theorem Cache.get_WF {c : Cache} {now : ℚ} {key : String} (h : c.WF) :
    ((c.get now key).2).WF := by
  obtain ⟨hnd, hlen⟩ := h
  simp only [Cache.keys_def] at hnd
  unfold Cache.get
  cases hl : c.entries.lookup key with
  | none => exact ⟨hnd, hlen⟩
  | some e =>
    by_cases hexp : e.ttl < now - e.created_at
    · simp only [hexp, if_true]
      exact ⟨nodup_keysOf_of_sublist (removeKey_sublist _ _) hnd,
        le_trans ((removeKey_sublist _ _).length_le) hlen⟩
    · simp only [hexp, if_false]
      have hmem : key ∈ keysOf c.entries := by
        rw [← lookup_isSome_iff (l := c.entries), hl]; rfl
      refine ⟨nodup_touch hnd, ?_⟩
      show (touchEntry c.entries key e).length ≤ c.max_size
      rw [length_touchEntry_of_mem e hnd hmem]
      exact hlen

theorem Cache.set_isSome {c : Cache} {now : ℚ} {key value : String} {ttl : Option ℚ}
    (hm : 1 ≤ c.max_size) : (c.set now key value ttl).isSome := by
  unfold Cache.set
  by_cases hcond : c.max_size ≤ c.entries.length ∧ c.entries.lookup key = none
  · rw [if_pos hcond]
    cases hes : c.entries with
    | nil =>
      exfalso
      rw [hes] at hcond
      simp only [List.length_nil] at hcond
      omega
    | cons p t => rfl
  · rw [if_neg hcond]
    rfl

theorem Cache.set_WF {c c2 : Cache} {now : ℚ} {key value : String} {ttl : Option ℚ}
    (h : c.WF) (hc2 : c.set now key value ttl = some c2) : c2.WF := by
  obtain ⟨hnd, hlen⟩ := h
  simp only [Cache.keys_def] at hnd
  unfold Cache.set at hc2
  by_cases hcond : c.max_size ≤ c.entries.length ∧ c.entries.lookup key = none
  · rw [if_pos hcond] at hc2
    cases hes : c.entries with
    | nil =>
      rw [hes] at hc2
      exact absurd hc2 (by simp)
    | cons p t =>
      rw [hes] at hc2
      simp only [Option.some.injEq] at hc2
      subst hc2
      have hknot : key ∉ keysOf t := by
        have hnm := lookup_eq_none_iff.1 hcond.2
        rw [hes] at hnm
        simp only [keysOf_cons, List.mem_cons] at hnm
        push_neg at hnm
        exact hnm.2
      have hndt : (keysOf t).Nodup := by
        rw [hes] at hnd
        exact (List.nodup_cons.1 hnd).2
      refine ⟨nodup_touch hndt, ?_⟩
      show (touchEntry t key _).length ≤ c.max_size
      rw [length_touchEntry_of_not_mem _ hknot]
      rw [hes] at hlen
      simp only [List.length_cons] at hlen
      exact hlen
  · rw [if_neg hcond] at hc2
    simp only [Option.some.injEq] at hc2
    subst hc2
    push_neg at hcond
    by_cases hmem : key ∈ keysOf c.entries
    · refine ⟨nodup_touch hnd, ?_⟩
      show (touchEntry c.entries key _).length ≤ c.max_size
      rw [length_touchEntry_of_mem _ hnd hmem]
      exact hlen
    · have hnone : c.entries.lookup key = none := lookup_eq_none_iff.2 hmem
      have hlt : ¬ c.max_size ≤ c.entries.length := fun hle => hcond hle hnone
      refine ⟨nodup_touch hnd, ?_⟩
      show (touchEntry c.entries key _).length ≤ c.max_size
      rw [length_touchEntry_of_not_mem _ hmem]
      omega

theorem Cache.filter_WF {c : Cache} (h : c.WF) (p : String × CacheEntry → Bool) :
    Cache.WF { c with entries := c.entries.filter p } :=
  ⟨nodup_keysOf_of_sublist (List.filter_sublist _) h.1,
    le_trans (List.filter_sublist _).length_le h.2⟩

theorem Cache.applyOp_max_size {c c2 : Cache} {op : CacheOp}
    (h : c.applyOp op = some c2) : c2.max_size = c.max_size := by
  cases op with
  | get now key =>
    simp only [Cache.applyOp, Option.some.injEq] at h
    subst h
    unfold Cache.get
    cases c.entries.lookup key with
    | none => rfl
    | some e => by_cases hexp : e.ttl < now - e.created_at <;> simp [hexp]
  | set now key value ttl =>
    simp only [Cache.applyOp] at h
    unfold Cache.set at h
    by_cases hcond : c.max_size ≤ c.entries.length ∧ c.entries.lookup key = none
    · rw [if_pos hcond] at h
      cases hes : c.entries with
      | nil => rw [hes] at h; exact absurd h (by simp)
      | cons p t =>
        rw [hes] at h
        simp only [Option.some.injEq] at h
        rw [← h]
    · rw [if_neg hcond] at h
      simp only [Option.some.injEq] at h
      rw [← h]
  | invalidate key =>
    simp only [Cache.applyOp, Option.some.injEq] at h
    rw [← h]; rfl
  | invalidateServer n =>
    simp only [Cache.applyOp, Option.some.injEq] at h
    rw [← h]; rfl
  | cleanup now =>
    simp only [Cache.applyOp, Option.some.injEq] at h
    rw [← h]; rfl

theorem Cache.applyOp_WF {c c2 : Cache} {op : CacheOp}
    (h : c.WF) (hc2 : c.applyOp op = some c2) : c2.WF := by
  cases op with
  | get now key =>
    simp only [Cache.applyOp, Option.some.injEq] at hc2
    subst hc2
    exact Cache.get_WF h
  | set now key value ttl =>
    exact Cache.set_WF h hc2
  | invalidate key =>
    simp only [Cache.applyOp, Option.some.injEq] at hc2
    subst hc2
    exact ⟨nodup_keysOf_of_sublist (removeKey_sublist _ _) h.1,
      le_trans (removeKey_sublist _ _).length_le h.2⟩
  | invalidateServer n =>
    simp only [Cache.applyOp, Option.some.injEq] at hc2
    subst hc2
    exact Cache.filter_WF h _
  | cleanup now =>
    simp only [Cache.applyOp, Option.some.injEq] at hc2
    subst hc2
    exact Cache.filter_WF h _

/-- Any operation sequence on a well-formed cache with positive capacity
runs to completion (no `StopIteration`) and preserves well-formedness. -/
theorem Cache.runOps_WF {c : Cache} (ops : List CacheOp)
    (h : c.WF) (hm : 1 ≤ c.max_size) :
    ∃ c2, c.runOps ops = some c2 ∧ c2.WF ∧ c2.max_size = c.max_size := by
  induction ops generalizing c with
  | nil => exact ⟨c, rfl, h, rfl⟩
  | cons op rest ih =>
    have hstep : ∃ c1, c.applyOp op = some c1 := by
      cases op with
      | set now key value ttl =>
        have := @Cache.set_isSome c now key value ttl hm
        exact Option.isSome_iff_exists.1 this
      | get now key => exact ⟨_, rfl⟩
      | invalidate key => exact ⟨_, rfl⟩
      | invalidateServer n => exact ⟨_, rfl⟩
      | cleanup now => exact ⟨_, rfl⟩
    obtain ⟨c1, hc1⟩ := hstep
    have hWF1 := Cache.applyOp_WF h hc1
    have hms1 := Cache.applyOp_max_size hc1
    obtain ⟨c2, hrun, hWF2, hms2⟩ := ih (c := c1) hWF1 (by omega)
    refine ⟨c2, ?_, hWF2, by omega⟩
    simp only [Cache.runOps, hc1]
    exact hrun

/-! #### Last-use bookkeeping (ghost state for the LRU property)

The list order of `Cache.entries` is claimed to be least-recently-used
order.  To state that, runs are instrumented with a logical clock: every
`set` and every cache hit stamps the touched key with the current clock
value.  The instrumentation does not influence the cache itself
(`LUCache.applyOp_cache`). -/

/-- Stamp key `k` with clock value `n`. -/
def setLU (lu : List (String × Nat)) (k : String) (n : Nat) : List (String × Nat) :=
  (k, n) :: removeKey lu k

/-- Clock stamp of key `k` (0 if never used). -/
def luVal (lu : List (String × Nat)) (k : String) : Nat :=
  (lu.lookup k).getD 0

@[simp] theorem luVal_setLU_self (lu : List (String × Nat)) (k : String) (n : Nat) :
    luVal (setLU lu k n) k = n := by
  simp [luVal, setLU, lookup_cons]

theorem luVal_setLU_ne {k k2 : String} (lu : List (String × Nat)) (n : Nat)
    (h : k2 ≠ k) : luVal (setLU lu k n) k2 = luVal lu k2 := by
  simp only [luVal, setLU, lookup_cons, if_neg h, lookup_removeKey_ne h]

/-- A cache together with the ghost last-use clock. -/
structure LUCache where
  cache : Cache
  lastUse : List (String × Nat)
  clock : Nat

/-- Initial instrumented state. -/
def LUCache.init (max_size : Nat) (default_ttl : ℚ) : LUCache :=
  ⟨Cache.empty max_size default_ttl, [], 0⟩

/-- Apply one operation, stamping used keys. -/
def LUCache.applyOp (s : LUCache) : CacheOp → Option LUCache
  | .get now key =>
    match (s.cache.get now key).1 with
    | some _ => some ⟨(s.cache.get now key).2, setLU s.lastUse key s.clock, s.clock + 1⟩
    | none => some ⟨(s.cache.get now key).2, s.lastUse, s.clock + 1⟩
  | .set now key value ttl =>
    match s.cache.set now key value ttl with
    | none => none
    | some c2 => some ⟨c2, setLU s.lastUse key s.clock, s.clock + 1⟩
  | .invalidate key => some ⟨s.cache.invalidate key, s.lastUse, s.clock + 1⟩
  | .invalidateServer n => some ⟨s.cache.invalidateServer n, s.lastUse, s.clock + 1⟩
  | .cleanup now => some ⟨s.cache.cleanupExpired now, s.lastUse, s.clock + 1⟩

/-- Run a sequence of operations with the ghost clock. -/
def LUCache.runOps (s : LUCache) : List CacheOp → Option LUCache
  | [] => some s
  | op :: rest =>
    match s.applyOp op with
    | none => none
    | some s2 => s2.runOps rest

/-- The instrumentation does not change the cache. -/
theorem LUCache.applyOp_cache (s : LUCache) (op : CacheOp) :
    (s.applyOp op).map LUCache.cache = s.cache.applyOp op := by
  cases op with
  | get now key =>
    simp only [LUCache.applyOp, Cache.applyOp]
    cases (s.cache.get now key).1 <;> rfl
  | set now key value ttl =>
    simp only [LUCache.applyOp, Cache.applyOp]
    cases s.cache.set now key value ttl <;> rfl
  | invalidate key => rfl
  | invalidateServer n => rfl
  | cleanup now => rfl

theorem LUCache.runOps_cache (s : LUCache) (ops : List CacheOp) :
    (s.runOps ops).map LUCache.cache = s.cache.runOps ops := by
  induction ops generalizing s with
  | nil => rfl
  | cons op rest ih =>
    simp only [LUCache.runOps, Cache.runOps]
    have h := LUCache.applyOp_cache s op
    cases hap : s.applyOp op with
    | none => rw [hap] at h; rw [← h]; rfl
    | some s2 =>
      rw [hap] at h
      simp only [Option.map_some'] at h
      rw [← h]
      exact ih s2

/-- The LRU invariant: entries are listed in strictly increasing order of
last use, and every stamp is in the past. -/
def LUCache.Inv (s : LUCache) : Prop :=
  s.cache.entries.Pairwise (fun p q => luVal s.lastUse p.1 < luVal s.lastUse q.1) ∧
  ∀ p ∈ s.cache.entries, luVal s.lastUse p.1 < s.clock

theorem Inv_of_sublist {s : LUCache} (h : s.Inv)
    {es2 : List (String × CacheEntry)} (hsub : es2.Sublist s.cache.entries) :
    LUCache.Inv ⟨{ s.cache with entries := es2 }, s.lastUse, s.clock + 1⟩ := by
  refine ⟨h.1.sublist hsub, ?_⟩
  intro p hp
  exact lt_trans (h.2 p (hsub.subset hp)) (Nat.lt_succ_self _)

theorem Inv_of_touch {s : LUCache} (h : s.Inv)
    {es : List (String × CacheEntry)} (hsub : es.Sublist s.cache.entries)
    (key : String) (e : CacheEntry) :
    LUCache.Inv ⟨{ s.cache with entries := touchEntry es key e },
      setLU s.lastUse key s.clock, s.clock + 1⟩ := by
  have hold : ∀ p ∈ removeKey es key, luVal (setLU s.lastUse key s.clock) p.1 =
      luVal s.lastUse p.1 := by
    intro p hp
    have hne : p.1 ≠ key := by
      have : p.1 ∈ keysOf (removeKey es key) := List.mem_map_of_mem Prod.fst hp
      exact (mem_keysOf_removeKey.1 this).2
    exact luVal_setLU_ne _ _ hne
  have hmemold : ∀ p ∈ removeKey es key, p ∈ s.cache.entries := fun p hp =>
    hsub.subset ((removeKey_sublist es key).subset hp)
  constructor
  · show (touchEntry es key e).Pairwise _
    rw [touchEntry, List.pairwise_append]
    refine ⟨?_, List.pairwise_singleton _ _, ?_⟩
    · have hbase : (removeKey es key).Pairwise
          (fun p q => luVal s.lastUse p.1 < luVal s.lastUse q.1) :=
        h.1.sublist ((removeKey_sublist es key).trans hsub)
      exact hbase.imp_of_mem (fun {a b} ha hb hr => by
        rw [hold a ha, hold b hb]; exact hr)
    · intro a ha b hb
      simp only [List.mem_singleton] at hb
      subst hb
      simp only [luVal_setLU_self]
      rw [hold a ha]
      exact h.2 a (hmemold a ha)
  · intro p hp
    rw [touchEntry, List.mem_append] at hp
    rcases hp with hp | hp
    · rw [hold p hp]
      exact lt_trans (h.2 p (hmemold p hp)) (Nat.lt_succ_self _)
    · simp only [List.mem_singleton] at hp
      subst hp
      simp only [luVal_setLU_self]
      exact Nat.lt_succ_self _

theorem LUCache.applyOp_Inv {s s2 : LUCache} {op : CacheOp}
    (h : s.Inv) (hs2 : s.applyOp op = some s2) : s2.Inv := by
  cases op with
  | get now key =>
    simp only [LUCache.applyOp] at hs2
    cases hl : s.cache.entries.lookup key with
    | none =>
      rw [@Cache.get_eq_miss _ now _ hl] at hs2
      simp only [Option.some.injEq] at hs2
      subst hs2
      exact Inv_of_sublist h (List.Sublist.refl _)
    | some e =>
      by_cases hexp : e.ttl < now - e.created_at
      · rw [Cache.get_eq_expired hl hexp] at hs2
        simp only [Option.some.injEq] at hs2
        subst hs2
        exact Inv_of_sublist h (removeKey_sublist _ _)
      · rw [Cache.get_eq_hit hl hexp] at hs2
        simp only [Option.some.injEq] at hs2
        subst hs2
        exact Inv_of_touch h (List.Sublist.refl _) key e
  | set now key value ttl =>
    simp only [LUCache.applyOp] at hs2
    by_cases hcond : s.cache.max_size ≤ s.cache.entries.length ∧
        s.cache.entries.lookup key = none
    · cases hes : s.cache.entries with
      | nil =>
        exfalso
        unfold Cache.set at hs2
        rw [if_pos hcond, hes] at hs2
        exact absurd hs2 (by simp)
      | cons p t =>
        rw [Cache.set_eq_evict hcond hes] at hs2
        simp only [Option.some.injEq] at hs2
        subst hs2
        exact Inv_of_touch h (by rw [hes]; exact List.sublist_cons_self p t) key _
    · rw [Cache.set_eq_noevict hcond] at hs2
      simp only [Option.some.injEq] at hs2
      subst hs2
      exact Inv_of_touch h (List.Sublist.refl _) key _
  | invalidate key =>
    simp only [LUCache.applyOp, Option.some.injEq] at hs2
    subst hs2
    exact Inv_of_sublist h (removeKey_sublist _ _)
  | invalidateServer n =>
    simp only [LUCache.applyOp, Option.some.injEq] at hs2
    subst hs2
    exact Inv_of_sublist h (List.filter_sublist _)
  | cleanup now =>
    simp only [LUCache.applyOp, Option.some.injEq] at hs2
    subst hs2
    exact Inv_of_sublist h (List.filter_sublist _)

theorem LUCache.runOps_Inv {s s2 : LUCache} {ops : List CacheOp}
    (h : s.Inv) (hs2 : s.runOps ops = some s2) : s2.Inv := by
  induction ops generalizing s with
  | nil =>
    simp only [LUCache.runOps, Option.some.injEq] at hs2
    rw [← hs2]; exact h
  | cons op rest ih =>
    simp only [LUCache.runOps] at hs2
    cases hap : s.applyOp op with
    | none => rw [hap] at hs2; exact absurd hs2 (by simp)
    | some s1 =>
      rw [hap] at hs2
      exact ih (LUCache.applyOp_Inv h hap) hs2

theorem touchEntry_of_not_mem {es : List (String × CacheEntry)} {k : String}
    (e : CacheEntry) (h : k ∉ keysOf es) : touchEntry es k e = es ++ [(k, e)] := by
  rw [touchEntry, removeKey_eq_of_not_mem h]

/-- The `set` calls for a list of `(key, (value, now))` triples. -/
def setOpsOf (ks : List (String × String × ℚ)) : List CacheOp :=
  ks.map (fun kv => CacheOp.set kv.2.2 kv.1 kv.2.1 none)

/-- Running `set` over fresh pairwise-distinct keys keeps exactly the
last `max_size` of them, dropping the earliest from the front. -/
theorem runOps_sets_fresh {c : Cache} (ks : List (String × String × ℚ))
    (hmax : 1 ≤ c.max_size)
    (hlen : c.entries.length ≤ c.max_size)
    (hnd : (keysOf c.entries ++ keysOf ks).Nodup) :
    ∃ c2, c.runOps (setOpsOf ks) = some c2 ∧
      c2.keys = (c.keys ++ keysOf ks).drop
        (c.entries.length + ks.length - c.max_size) := by
  induction ks generalizing c with
  | nil =>
    refine ⟨c, rfl, ?_⟩
    rw [Nat.sub_eq_zero_of_le (by simpa using hlen)]
    simp
  | cons kv rest ih =>
    obtain ⟨key, value, now⟩ := kv
    have hfresh : key ∉ keysOf c.entries := by
      have hdis := (List.nodup_append.1 hnd).2.2
      intro hc
      exact hdis hc (by simp [keysOf])
    have hlookup : c.entries.lookup key = none := lookup_eq_none_iff.2 hfresh
    by_cases hfull : c.max_size ≤ c.entries.length
    · -- at capacity: evict the least-recently-used head
      have heq : c.entries.length = c.max_size := le_antisymm hlen hfull
      cases hes : c.entries with
      | nil =>
        exfalso
        rw [hes] at heq
        simp only [List.length_nil] at heq
        omega
      | cons p tl =>
        have hndk : (keysOf c.entries).Nodup := (List.nodup_append.1 hnd).1
        have hkeytl : key ∉ keysOf tl := by
          intro hc
          exact hfresh (by rw [hes]; simp [hc])
        set e : CacheEntry := ⟨value, now, Option.getD none c.default_ttl⟩ with he
        have hset := @Cache.set_eq_evict _ now _ value none _ _
          ⟨hfull, hlookup⟩ hes
        set c1 : Cache :=
          { c with entries := touchEntry tl key ⟨value, now, Option.getD none c.default_ttl⟩ } with hc1
        have hc1entries : c1.entries = tl ++ [(key, ⟨value, now, Option.getD none c.default_ttl⟩)] := by
          rw [hc1]
          exact touchEntry_of_not_mem _ hkeytl
        have hc1len : c1.entries.length = c.entries.length := by
          rw [hc1entries, hes]
          simp
        have hc1nd : (keysOf c1.entries ++ keysOf rest).Nodup := by
          rw [hc1entries, keysOf_append]
          have : keysOf c.entries ++ keysOf (⟨key, value, now⟩ :: rest) =
              p.1 :: (keysOf tl ++ key :: keysOf rest) := by
            rw [hes]; simp [keysOf]
          rw [this] at hnd
          have htail := (List.nodup_cons.1 hnd).2
          simpa [keysOf] using htail
        obtain ⟨c2, hrun, hkeys⟩ := ih (c := c1) (by rw [hc1]; exact hmax)
          (by rw [hc1len, heq, hc1]) hc1nd
        refine ⟨c2, ?_, ?_⟩
        · show c.runOps (setOpsOf (⟨key, value, now⟩ :: rest)) = some c2
          simp only [setOpsOf, List.map_cons, Cache.runOps, Cache.applyOp, hset]
          exact hrun
        · rw [hkeys]
          have h1 : c1.keys = keysOf tl ++ [key] := by
            rw [Cache.keys_def, hc1entries, keysOf_append]
            rfl
          rw [h1, hc1len, heq]
          have h2 : c.keys ++ keysOf (⟨key, value, now⟩ :: rest) =
              p.1 :: ((keysOf tl ++ [key]) ++ keysOf rest) := by
            rw [Cache.keys_def, hes]
            simp [keysOf]
          rw [h2]
          have h3 : c.max_size + (rest.length + 1) - c.max_size = rest.length + 1 := by
            omega
          have h4 : c.max_size + rest.length - c.max_size = rest.length := by
            omega
          have h5 : tl.length + 1 = c.max_size := by
            have h6 := heq
            rw [hes] at h6
            simpa using h6
          simp only [List.length_cons, h3, h4, List.drop_succ_cons]
          rw [show tl.length + 1 + (rest.length + 1) - c.max_size = rest.length + 1 from
            by omega]
          rw [List.drop_succ_cons]
    · -- below capacity: plain insert at the most-recently-used end
      push_neg at hfull
      have hset := @Cache.set_eq_noevict c now key value none
        (fun hc => absurd hc.1 (by omega))
      set c1 : Cache :=
        { c with entries := touchEntry c.entries key ⟨value, now, Option.getD none c.default_ttl⟩ } with hc1
      have hc1entries : c1.entries =
          c.entries ++ [(key, ⟨value, now, Option.getD none c.default_ttl⟩)] := by
        rw [hc1]
        exact touchEntry_of_not_mem _ hfresh
      have hc1len : c1.entries.length = c.entries.length + 1 := by
        rw [hc1entries]
        simp
      have hc1nd : (keysOf c1.entries ++ keysOf rest).Nodup := by
        rw [hc1entries, keysOf_append]
        have : keysOf c.entries ++ keysOf (⟨key, value, now⟩ :: rest) =
            keysOf c.entries ++ ([key] ++ keysOf rest) := by
          simp [keysOf]
        rw [this, ← List.append_assoc] at hnd
        simpa [keysOf] using hnd
      have hmax1 : 1 ≤ c1.max_size := hmax
      have hlen1 : c1.entries.length ≤ c1.max_size := by
        rw [hc1len]
        show c.entries.length + 1 ≤ c.max_size
        omega
      obtain ⟨c2, hrun, hkeys⟩ := ih (c := c1) hmax1 hlen1 hc1nd
      refine ⟨c2, ?_, ?_⟩
      · show c.runOps (setOpsOf (⟨key, value, now⟩ :: rest)) = some c2
        simp only [setOpsOf, List.map_cons, Cache.runOps, Cache.applyOp]
        rw [hset]
        exact hrun
      · have h1 : c1.keys = c.keys ++ [key] := by
          rw [Cache.keys_def, hc1entries, keysOf_append, Cache.keys_def]
          rfl
        rw [hkeys, h1, hc1len]
        rw [show c.entries.length + 1 + rest.length =
          c.entries.length + (rest.length + 1) from by omega]
        show List.drop _ _ = List.drop (c.entries.length + (rest.length + 1) - c.max_size) _
        congr 1
        simp [keysOf]

/-- C7: for every sequence of cache operations (`get`, `set`,
`invalidate`, …) on a cache constructed with `max_size ≥ 1`, the number
of stored entries never exceeds `max_size`; when `set` must evict it
removes the least-recently-used key (the cached key whose last use is
strictly earliest); and after setting `max_size + k` distinct fresh keys
with no intervening gets the cache holds exactly `max_size` entries and
the `k` earliest keys are absent. -/
theorem claim_C7_cache_lru (m : Nat) (ttl0 : ℚ) (hm : 1 ≤ m) :
    (∀ ops c2, (Cache.empty m ttl0).runOps ops = some c2 →
      c2.entries.length ≤ m) ∧
    (∀ ops s2, (LUCache.init m ttl0).runOps ops = some s2 →
      ∀ p tl, s2.cache.entries = p :: tl →
      ∀ key, key ∉ s2.cache.keys →
      s2.cache.max_size ≤ s2.cache.entries.length →
      (∀ now value t c3, s2.cache.set now key value t = some c3 →
        c3.keys = keysOf tl ++ [key] ∧ p.1 ∉ c3.keys) ∧
      (∀ q ∈ tl, luVal s2.lastUse p.1 < luVal s2.lastUse q.1)) ∧
    (∀ (ks : List (String × String × ℚ)) (k : Nat),
      (keysOf ks).Nodup → ks.length = m + k →
      ∀ c2, (Cache.empty m ttl0).runOps (setOpsOf ks) = some c2 →
        c2.keys = (keysOf ks).drop k ∧ c2.entries.length = m ∧
        ∀ x ∈ (keysOf ks).take k, x ∉ c2.keys) := by
  have hWFempty : (Cache.empty m ttl0).WF := by
    constructor
    · simp [Cache.empty, keysOf]
    · simp [Cache.empty]
  refine ⟨?_, ?_, ?_⟩
  · -- size bound
    intro ops c2 hrun
    obtain ⟨c2', hrun', hWF, hms⟩ := Cache.runOps_WF ops hWFempty hm
    rw [hrun] at hrun'
    injection hrun' with he
    subst he
    calc c2.entries.length ≤ c2.max_size := hWF.2
      _ = m := hms
  · -- LRU eviction
    intro ops s2 hrun p tl hes key hkey hfull
    have hcache : (Cache.empty m ttl0).runOps ops = some s2.cache := by
      have hc := LUCache.runOps_cache (LUCache.init m ttl0) ops
      rw [hrun] at hc
      simpa using hc.symm
    have hWF : s2.cache.WF := by
      obtain ⟨c2', hrun', hWF, hms⟩ := Cache.runOps_WF ops hWFempty hm
      rw [hcache] at hrun'
      injection hrun' with he
      rw [he]
      exact hWF
    have hInv : s2.Inv := by
      refine LUCache.runOps_Inv ?_ hrun
      exact ⟨List.Pairwise.nil, by intro q hq; simp [LUCache.init, Cache.empty] at hq⟩
    have hndk : (keysOf s2.cache.entries).Nodup := by
      have := hWF.1
      rwa [Cache.keys_def] at this
    have hp1tl : p.1 ∉ keysOf tl := by
      rw [hes] at hndk
      exact (List.nodup_cons.1 hndk).1
    have hkeytl : key ∉ keysOf tl := by
      intro hc
      apply hkey
      rw [Cache.keys_def, hes]
      exact List.mem_cons_of_mem _ hc
    have hp1key : p.1 ≠ key := by
      intro hc
      apply hkey
      rw [← hc, Cache.keys_def, hes]
      exact List.mem_cons_self _ _
    constructor
    · intro now value t c3 hc3
      have hlookup : s2.cache.entries.lookup key = none := by
        refine lookup_eq_none_iff.2 ?_
        intro hc
        exact hkey (by rw [Cache.keys_def]; exact hc)
      rw [Cache.set_eq_evict ⟨hfull, hlookup⟩ hes] at hc3
      injection hc3 with he
      subst he
      constructor
      · rw [Cache.keys_def]
        show keysOf (touchEntry tl key _) = keysOf tl ++ [key]
        rw [touchEntry_of_not_mem _ hkeytl, keysOf_append]
        rfl
      · rw [Cache.keys_def]
        show p.1 ∉ keysOf (touchEntry tl key _)
        rw [touchEntry_of_not_mem _ hkeytl, keysOf_append]
        intro hc
        rcases List.mem_append.1 hc with hc | hc
        · exact hp1tl hc
        · simp only [keysOf_cons, keysOf_nil, List.mem_singleton] at hc
          exact hp1key hc
    · have hpw := hInv.1
      rw [hes] at hpw
      exact (List.pairwise_cons.1 hpw).1
  · -- distinct-keys scenario
    intro ks k hnd hlen c2 hrun
    have hfr := runOps_sets_fresh (c := Cache.empty m ttl0) ks hm
      (by simp [Cache.empty]) (by simpa [Cache.empty, keysOf] using hnd)
    obtain ⟨c2', hrun', hkeys⟩ := hfr
    rw [hrun] at hrun'
    injection hrun' with he
    subst he
    have hkeys2 : c2.keys = (keysOf ks).drop k := by
      rw [hkeys]
      have h1 : (Cache.empty m ttl0).entries.length = 0 := rfl
      have h2 : (Cache.empty m ttl0).keys = [] := rfl
      rw [h1, h2, List.nil_append]
      congr 1
      have h3 : ks.length = m + k := hlen
      have h6 : (Cache.empty m ttl0).max_size = m := rfl
      rw [h6]
      omega
    refine ⟨hkeys2, ?_, ?_⟩
    · have h4 : c2.entries.length = c2.keys.length := by
        rw [Cache.keys_def]
        exact (List.length_map _ _).symm
      rw [h4, hkeys2, List.length_drop]
      have h5 : (keysOf ks).length = ks.length := List.length_map _ _
      omega
    · intro x hx
      rw [hkeys2]
      have hnd2 : ((keysOf ks).take k ++ (keysOf ks).drop k).Nodup := by
        rw [List.take_append_drop]
        exact hnd
      have hdis := (List.nodup_append.1 hnd2).2.2
      intro hc
      exact hdis hx hc

/-- Witness for C7 at `max_size = 2`: after inserting the three distinct
keys `a, b, c` the cache holds exactly `b` and `c`. -/
theorem claim_C7_cache_lru_witness :
    1 ≤ 2 ∧
    ∀ c2, (Cache.empty 2 5).runOps
        (setOpsOf [("a", "x", 0), ("b", "y", 0), ("c", "z", 0)]) = some c2 →
      c2.keys = ["b", "c"] ∧ c2.entries.length = 2 ∧ "a" ∉ c2.keys := by
  refine ⟨by norm_num, ?_⟩
  intro c2 hrun
  have h := (claim_C7_cache_lru 2 5 (by norm_num)).2.2
    [("a", "x", 0), ("b", "y", 0), ("c", "z", 0)] 1 (by decide) (by decide) c2 hrun
  refine ⟨?_, h.2.1, ?_⟩
  · rw [h.1]
    rfl
  · intro hc
    exact (h.2.2 "a" (by decide)) hc

/-! ### `config.py` — `.env` loading and `${NAME}` expansion

Python strings are embedded as `List Char` (named `Str`), the process
environment `os.environ` as an association list from `String` to
`String`.  `_load_env_file` is modelled on the list of lines of the
`.env` file (file access itself is I/O and outside the embedding).
`expand_env_vars` has no raising path in the source, so its embedding is
a plain total function. -/

/-- A Python `str` as its character list. -/
abbrev Str := List Char

/-- Whitespace recognised by `str.strip()`. -/
def isWS (c : Char) : Bool :=
  c == ' ' || c == '\t' || c == '\n' || c == '\r'

/-- `str.strip()`. -/
def pyStrip (s : Str) : Str :=
  ((s.dropWhile isWS).reverse.dropWhile isWS).reverse

/-- Strip one matching pair of surrounding quotes, as in
`if value and value[0] in ('"', "'") and value[0] == value[-1]`. -/
def unquote (v : Str) : Str :=
  match v with
  | [] => []
  | c :: rest =>
    if (c = '"' ∨ c = '\'') ∧ (c :: rest).getLast? = some c then rest.dropLast
    else c :: rest

/-- `os.environ.get(name, '')` with the name assembled from characters. -/
def envGet (env : List (String × String)) (name : Str) : Str :=
  ((env.lookup (String.mk name)).getD "").data

/-- `os.environ[key] = value`, guarded by
`if key and key not in os.environ` (system environment wins). -/
def envSetIfAbsent (env : List (String × String)) (key value : Str) :
    List (String × String) :=
  if key ≠ [] ∧ env.lookup (String.mk key) = none then
    env ++ [(String.mk key, String.mk value)]
  else env

/-- Process one stripped line of the `.env` file
(`ConfigLoader._load_env_file` loop body): skip blank lines and
comments, split on the first `=`, strip and unquote the value. -/
def loadEnvLine (env : List (String × String)) (line : Str) :
    List (String × String) :=
  if pyStrip line = [] then env
  else if (pyStrip line).head? = some '#' then env
  else if '=' ∈ pyStrip line then
    envSetIfAbsent env
      (pyStrip ((pyStrip line).takeWhile (fun c => c != '=')))
      (unquote (pyStrip (((pyStrip line).dropWhile (fun c => c != '=')).drop 1)))
  else env

/-- `ConfigLoader._load_env_file`: fold over the lines of the file. -/
def loadEnvFile (env : List (String × String)) (lines : List Str) :
    List (String × String) :=
  lines.foldl loadEnvLine env

theorem length_dropWhile_le (p : α → Bool) (l : List α) :
    (l.dropWhile p).length ≤ l.length := by
  induction l with
  | nil => simp [List.dropWhile]
  | cons c t ih =>
    rw [List.dropWhile_cons]
    by_cases h : p c = true <;> simp [h] <;> omega

/-- The matches of `re.findall(r'\$\{([^}]+)\}', value)`, in order: a
match needs `${`, one or more non-`}` characters, and a closing `}`;
scanning resumes after a successful match, or at the next character after
a failed one. -/
def findVars : Str → List Str
  | [] => []
  | c :: rest =>
    if c = '$' then
      match rest with
      | '{' :: rest2 =>
        let name := rest2.takeWhile (fun d => d != '}')
        if name.isEmpty then findVars ('{' :: rest2)
        else
          match hrem : rest2.dropWhile (fun d => d != '}') with
          | [] => findVars ('{' :: rest2)
          | c2 :: tail =>
            if c2 = '}' then name :: findVars tail else findVars ('{' :: rest2)
      | r => findVars r
    else findVars rest
  termination_by s => s.length
  decreasing_by
    all_goals first
      | (simp only [List.length_cons]; omega)
      | (have h1 := length_dropWhile_le (fun d => d != '}') rest2
         rw [hrem] at h1
         simp only [List.length_cons] at h1
         simp only [List.length_cons]
         omega)

/-- `str.replace(old, new)`: leftmost non-overlapping occurrences,
replacement text is not rescanned.  The call sites of
`expand_env_vars` always pass the nonempty pattern `${name}`; for an
empty pattern this model returns the string unchanged. -/
def replaceAll : Str → Str → Str → Str
  | s, [], _ => s
  | [], _, _ => []
  | c :: rest, p :: ps, rep =>
    if isPrefList (p :: ps) (c :: rest) then
      rep ++ replaceAll ((c :: rest).drop (p :: ps).length) (p :: ps) rep
    else
      c :: replaceAll rest (p :: ps) rep
  termination_by s _ _ => s.length
  decreasing_by
    · simp only [List.length_cons, List.length_drop]
      omega
    · simp only [List.length_cons]
      omega

/-- The literal pattern `f'${{{name}}}'`. -/
def tokenOf (name : Str) : Str := '$' :: '{' :: name ++ ['}']

/-- `ConfigLoader.expand_env_vars` on one string value: find all
`${NAME}` tokens, then replace each in turn by the environment value
(or the empty string when the variable is unset — the source's
`os.environ.get(var_name, '')`; there is no raising path). -/
def expandValue (env : List (String × String)) (s : Str) : Str :=
  (findVars s).foldl
    (fun acc var => replaceAll acc (tokenOf var) (envGet env var)) s

theorem lookup_append_left {l₁ l₂ : List (String × α)} {k : String}
    (h : k ∈ keysOf l₁) : (l₁ ++ l₂).lookup k = l₁.lookup k := by
  induction l₁ with
  | nil => simp at h
  | cons p rest ih =>
    rw [List.cons_append, lookup_cons, lookup_cons]
    by_cases hk : k = p.1
    · rw [if_pos hk, if_pos hk]
    · rw [if_neg hk, if_neg hk]
      apply ih
      simp only [keysOf_cons, List.mem_cons] at h
      rcases h with h | h
      · exact absurd h hk
      · exact h

/-- A key already present in the environment is never overwritten by a
`.env` line, and stays present. -/
theorem loadEnvLine_pres {env : List (String × String)} {line : Str} {k : String}
    (h : k ∈ keysOf env) :
    (loadEnvLine env line).lookup k = env.lookup k ∧
      k ∈ keysOf (loadEnvLine env line) := by
  unfold loadEnvLine envSetIfAbsent
  split
  · exact ⟨rfl, h⟩
  · split
    · exact ⟨rfl, h⟩
    · split
      · split
        · refine ⟨lookup_append_left h, ?_⟩
          rw [keysOf_append]
          exact List.mem_append_left _ h
        · exact ⟨rfl, h⟩
      · exact ⟨rfl, h⟩

/-- `_load_env_file` never changes a binding that the process
environment already has: the system environment wins. -/
theorem loadEnvFile_pres {env : List (String × String)} (lines : List Str)
    {k : String} (h : k ∈ keysOf env) :
    (loadEnvFile env lines).lookup k = env.lookup k ∧
      k ∈ keysOf (loadEnvFile env lines) := by
  induction lines generalizing env with
  | nil => exact ⟨rfl, h⟩
  | cons line rest ih =>
    have h1 := @loadEnvLine_pres _ line _ h
    have h2 := @ih (loadEnvLine env line) h1.2
    exact ⟨h2.1.trans h1.1, h2.2⟩

theorem takeWhile_append_all {p : Char → Bool} {xs : Str}
    (h : ∀ x ∈ xs, p x = true) (ys : Str) :
    (xs ++ ys).takeWhile p = xs ++ ys.takeWhile p := by
  induction xs with
  | nil => rfl
  | cons c t ih =>
    rw [List.cons_append, List.takeWhile_cons, h c (by simp), List.cons_append,
      ih (fun x hx => h x (by simp [hx]))]
    simp

theorem dropWhile_append_all {p : Char → Bool} {xs : Str}
    (h : ∀ x ∈ xs, p x = true) (ys : Str) :
    (xs ++ ys).dropWhile p = ys.dropWhile p := by
  induction xs with
  | nil => rfl
  | cons c t ih =>
    rw [List.cons_append, List.dropWhile_cons, h c (by simp)]
    exact ih (fun x hx => h x (by simp [hx]))

theorem findVars_no_dollar {s : Str} (h : '$' ∉ s) : findVars s = [] := by
  induction s with
  | nil => rw [findVars.eq_def]
  | cons c rest ih =>
    have hc : ¬ c = '$' := by
      intro hc
      exact h (by rw [hc]; exact List.mem_cons_self _ _)
    rw [findVars.eq_def]
    simp only [hc, if_false]
    exact ih (fun hm => h (List.mem_cons_of_mem _ hm))

theorem findVars_append_no_dollar {pre : Str} (s : Str) (h : '$' ∉ pre) :
    findVars (pre ++ s) = findVars s := by
  induction pre with
  | nil => rfl
  | cons c t ih =>
    have hc : ¬ c = '$' := by
      intro hc
      exact h (by rw [hc]; exact List.mem_cons_self _ _)
    rw [List.cons_append, findVars.eq_def]
    simp only [hc, if_false]
    exact ih (fun hm => h (List.mem_cons_of_mem _ hm))

theorem findVars_token {name post : Str} (hne : name ≠ []) (hnb : '}' ∉ name)
    (hpost : '$' ∉ post) :
    findVars (tokenOf name ++ post) = [name] := by
  have hlist : tokenOf name ++ post = '$' :: '{' :: (name ++ '}' :: post) := by
    simp [tokenOf]
  have hall : ∀ x ∈ name, (x != '}') = true := by
    intro x hx
    have hx2 : x ≠ '}' := fun hc => hnb (hc ▸ hx)
    simpa using hx2
  have htake : (name ++ '}' :: post).takeWhile (fun d => d != '}') = name := by
    rw [takeWhile_append_all hall, List.takeWhile_cons]
    simp
  have hdrop : (name ++ '}' :: post).dropWhile (fun d => d != '}') = '}' :: post := by
    rw [dropWhile_append_all hall, List.dropWhile_cons]
    simp
  rw [hlist, findVars.eq_def]
  dsimp only
  split
  · split
    · rename_i rest2 hemp
      injection hemp with h1 h2
      subst h2
      split
      · rename_i hemp2
        rw [htake] at hemp2
        exact absurd (List.isEmpty_iff.1 hemp2) hne
      · split
        · rename_i heq
          rw [hdrop] at heq
          exact absurd heq (by simp)
        · rename_i c2 tail heq
          rw [hdrop] at heq
          injection heq with h3 h4
          subst h3
          subst h4
          rw [if_pos rfl, htake, findVars_no_dollar hpost]
    · rename_i hcontra
      exact (hcontra (name ++ '}' :: post) rfl).elim
  · rename_i hd
    exact absurd rfl hd

theorem isPrefList_append_self (p rest : Str) : isPrefList p (p ++ rest) = true := by
  induction p with
  | nil => rfl
  | cons c t ih =>
    rw [List.cons_append, isPrefList]
    simp [ih]

theorem isPrefList_cons_false {p c : Char} {ps rest : Str} (h : p ≠ c) :
    isPrefList (p :: ps) (c :: rest) = false := by
  rw [isPrefList]
  simp [h]

theorem replaceAll_cons_nomatch {c : Char} {rest rep : Str} {p : Char} {ps : Str}
    (h : isPrefList (p :: ps) (c :: rest) = false) :
    replaceAll (c :: rest) (p :: ps) rep = c :: replaceAll rest (p :: ps) rep := by
  rw [replaceAll.eq_def]
  dsimp only
  rw [h]
  simp

theorem replaceAll_cons_match {c : Char} {rest rep : Str} {p : Char} {ps : Str}
    (h : isPrefList (p :: ps) (c :: rest) = true) :
    replaceAll (c :: rest) (p :: ps) rep =
      rep ++ replaceAll ((c :: rest).drop (p :: ps).length) (p :: ps) rep := by
  rw [replaceAll.eq_def]
  dsimp only
  rw [h]
  simp

theorem replaceAll_no_dollar {s pat rep : Str} (h : '$' ∉ s)
    (hp : pat.head? = some '$') : replaceAll s pat rep = s := by
  induction s with
  | nil =>
    cases pat with
    | nil => rw [replaceAll.eq_def]
    | cons p ps => rw [replaceAll.eq_def]
  | cons c rest ih =>
    cases pat with
    | nil => simp at hp
    | cons p ps =>
      have hpd : p = '$' := by simpa using hp
      have hc : c ≠ '$' := fun hc => h (by rw [← hc]; exact List.mem_cons_self _ _)
      rw [replaceAll_cons_nomatch
        (isPrefList_cons_false (by rw [hpd]; exact fun hpc => hc hpc.symm))]
      rw [ih (fun hm => h (List.mem_cons_of_mem _ hm))]

theorem replaceAll_exact {pre post rep : Str} {p : Char} {ps : Str}
    (hpre : '$' ∉ pre) (hpost : '$' ∉ post) (hp : p = '$') :
    replaceAll (pre ++ ((p :: ps) ++ post)) (p :: ps) rep = pre ++ (rep ++ post) := by
  induction pre with
  | nil =>
    rw [List.nil_append, List.nil_append, List.cons_append]
    rw [replaceAll_cons_match (by
      have h1 := isPrefList_append_self (p :: ps) post
      simpa using h1)]
    have hdrop : (p :: (ps ++ post)).drop (p :: ps).length = post := by
      rw [show p :: (ps ++ post) = (p :: ps) ++ post from rfl]
      exact List.drop_left _ _
    rw [hdrop, replaceAll_no_dollar hpost (by rw [hp]; rfl)]
  | cons c t ih =>
    have hc : c ≠ '$' := fun hc => hpre (by rw [← hc]; exact List.mem_cons_self _ _)
    rw [List.cons_append, replaceAll_cons_nomatch
      (isPrefList_cons_false (by rw [hp]; exact fun hpc => hc hpc.symm))]
    rw [ih (fun hm => hpre (List.mem_cons_of_mem _ hm))]
    rfl

/-- Expansion of a string that contains exactly one `${name}` token. -/
theorem expandValue_one (env : List (String × String)) (name pre post : Str)
    (hpre : '$' ∉ pre) (hpost : '$' ∉ post)
    (hne : name ≠ []) (hnb : '}' ∉ name) :
    expandValue env (pre ++ tokenOf name ++ post) =
      pre ++ (envGet env name ++ post) := by
  unfold expandValue
  rw [List.append_assoc, findVars_append_no_dollar _ hpre,
    findVars_token hne hnb hpost]
  show replaceAll (pre ++ (tokenOf name ++ post)) (tokenOf name) (envGet env name) =
    pre ++ (envGet env name ++ post)
  exact replaceAll_exact hpre hpost rfl

/-- C8: a `KEY=VALUE` line of the `.env` file sets the process
environment variable only when it is not already present, so when `KEY`
is set both in the system environment and in the `.env` file,
configuration expansion of `${KEY}` substitutes the system
environment's value. -/
theorem claim_C8_env_precedence (env : List (String × String)) (lines : List Str)
    (KEY vsys : String) (pre post : Str)
    (hk : env.lookup KEY = some vsys)
    (hpre : '$' ∉ pre) (hpost : '$' ∉ post)
    (hne : KEY.data ≠ []) (hnb : '}' ∉ KEY.data) :
    (loadEnvFile env lines).lookup KEY = some vsys ∧
    expandValue (loadEnvFile env lines) (pre ++ tokenOf KEY.data ++ post) =
      pre ++ (vsys.data ++ post) := by
  have hmem : KEY ∈ keysOf env := by
    rw [← lookup_isSome_iff (l := env), hk]
    rfl
  have hpres := @loadEnvFile_pres env lines _ hmem
  have hlook : (loadEnvFile env lines).lookup KEY = some vsys := hpres.1.trans hk
  refine ⟨hlook, ?_⟩
  rw [expandValue_one _ _ _ _ hpre hpost hne hnb]
  have hmk : String.mk KEY.data = KEY := rfl
  rw [envGet, hmk, hlook]
  rfl

/-- C9: expansion of a `${NAME}` token whose variable is not set in the
process environment replaces the token with the empty string and
returns normally (the embedding of `expand_env_vars` is a total
function; the source has no raising path). -/
theorem claim_C9_undefined_var_empty (env : List (String × String))
    (KEY : String) (pre post : Str)
    (hk : env.lookup KEY = none)
    (hpre : '$' ∉ pre) (hpost : '$' ∉ post)
    (hne : KEY.data ≠ []) (hnb : '}' ∉ KEY.data) :
    expandValue env (pre ++ tokenOf KEY.data ++ post) = pre ++ post := by
  rw [expandValue_one _ _ _ _ hpre hpost hne hnb]
  have hmk : String.mk KEY.data = KEY := rfl
  rw [envGet, hmk, hk]
  rfl

/-- Witness for C8: `HOME` is `/sys` in the system environment and
`/dot` in the `.env` file; the system value wins in `${HOME}`. -/
theorem claim_C8_env_precedence_witness :
    (loadEnvFile [("HOME", "/sys")] ["HOME=/dot".data]).lookup "HOME" =
        some "/sys" ∧
    expandValue (loadEnvFile [("HOME", "/sys")] ["HOME=/dot".data])
        ("a ".data ++ tokenOf "HOME".data ++ " b".data) =
      "a ".data ++ ("/sys".data ++ " b".data) :=
  claim_C8_env_precedence [("HOME", "/sys")] ["HOME=/dot".data] "HOME" "/sys"
    "a ".data " b".data (by decide) (by decide) (by decide) (by decide) (by decide)

/-- Witness for C9: `${HOME}` with no `HOME` in the environment expands
to the empty string. -/
theorem claim_C9_undefined_var_empty_witness :
    expandValue [("OTHER", "x")]
        ("a ".data ++ tokenOf "HOME".data ++ " b".data) =
      "a ".data ++ " b".data :=
  claim_C9_undefined_var_empty [("OTHER", "x")] "HOME" "a ".data " b".data
    (by decide) (by decide) (by decide) (by decide) (by decide)

/-! ### `config.py` — dependency validation and startup order

Only the dependency structure of the validated `servers` mapping matters
to `_check_circular_dependencies` and `get_startup_order`; it is
embedded as an association list from server name to its declared
`dependencies`.  The recursive Python `dfs` functions become fuel-indexed
recursions; `servers.length + 1` fuel always suffices
(`checkCircular_ne_fuelOut`, `getStartupOrder_isSome`). -/

/-- The `servers` mapping reduced to its dependency structure. -/
abbrev ServersCfg := List (String × List String)

/-- `servers[name].get("dependencies", [])`. -/
def depsOf (servers : ServersCfg) (name : String) : List String :=
  (servers.lookup name).getD []

/-- `d` is a declared dependency of `u`. -/
def Edge (servers : ServersCfg) (u d : String) : Prop :=
  d ∈ depsOf servers u

/-- Result of `_check_circular_dependencies`: normal return carrying
the visited set, the raised `ConfigurationError` carrying the names in
`"Circular dependency detected: {server_name} -> {dep}"`, or fuel
exhaustion. -/
inductive CycCheck where
  | ok (visited : List String)
  | cycle (server dep : String)
  | fuelOut
deriving DecidableEq

mutual
/-- The recursive `dfs` of `_check_circular_dependencies`: mark the node
visited and on the recursion stack, then scan its dependencies. -/
def checkDfs (servers : ServersCfg) :
    Nat → String → List String → List String → CycCheck
  | 0, _, _, _ => .fuelOut
  | fuel + 1, v, visited, stack =>
    checkDeps servers fuel (depsOf servers v) v (v :: visited) (v :: stack)
  termination_by fuel _ _ _ => (fuel, 0)

/-- The `for dep in dependencies` loop of that `dfs`: recurse into
unvisited dependencies, raise on a dependency in the recursion stack. -/
def checkDeps (servers : ServersCfg) :
    Nat → List String → String → List String → List String → CycCheck
  | _, [], _, visited, _ => .ok visited
  | fuel, d :: rest, v, visited, stack =>
    if d ∈ visited then
      if d ∈ stack then .cycle v d
      else checkDeps servers fuel rest v visited stack
    else
      match checkDfs servers fuel d visited stack with
      | .ok visited2 => checkDeps servers fuel rest v visited2 stack
      | r => r
  termination_by fuel ds _ _ _ => (fuel, ds.length + 1)
end

/-- The `for server_name in servers` loop of
`_check_circular_dependencies`. -/
def checkAll (servers : ServersCfg) (fuel : Nat) :
    List String → List String → CycCheck
  | [], visited => .ok visited
  | n :: rest, visited =>
    if n ∈ visited then checkAll servers fuel rest visited
    else
      match checkDfs servers fuel n visited [] with
      | .ok visited2 => checkAll servers fuel rest visited2
      | r => r

/-- `ConfigLoader._check_circular_dependencies`. -/
def checkCircularDependencies (servers : ServersCfg) : CycCheck :=
  checkAll servers (servers.length + 1) (keysOf servers) []

mutual
/-- The recursive `dfs` of `get_startup_order`: return early on a
visited node, otherwise visit all dependencies and append the node
after them (postorder). -/
def orderDfs (servers : ServersCfg) :
    Nat → String → List String × List String → Option (List String × List String)
  | 0, _, _ => none
  | fuel + 1, v, (visited, order) =>
    if v ∈ visited then some (visited, order)
    else
      match orderDeps servers fuel (depsOf servers v) (v :: visited, order) with
      | some (visited2, order2) => some (visited2, order2 ++ [v])
      | none => none
  termination_by fuel _ _ => (fuel, 0)

/-- The `for dep in dependencies` loop of that `dfs`. -/
def orderDeps (servers : ServersCfg) :
    Nat → List String → List String × List String →
      Option (List String × List String)
  | _, [], st => some st
  | fuel, d :: rest, st =>
    match orderDfs servers fuel d st with
    | some st2 => orderDeps servers fuel rest st2
    | none => none
  termination_by fuel ds _ => (fuel, ds.length + 1)
end

/-- The `for server_name in servers` loop of `get_startup_order`. -/
def orderAll (servers : ServersCfg) (fuel : Nat) :
    List String → List String × List String →
      Option (List String × List String)
  | [], st => some st
  | n :: rest, st =>
    match orderDfs servers fuel n st with
    | some st2 => orderAll servers fuel rest st2
    | none => none

/-- `ConfigLoader.get_startup_order`. -/
def getStartupOrder (servers : ServersCfg) : Option (List String) :=
  (orderAll servers (servers.length + 1) (keysOf servers) ([], [])).map Prod.snd

/-! #### The recursion stack is a dependency path, so a reported cycle
edge really closes a cycle. -/

theorem chain_mem_transGen {servers : ServersCfg} {x : String} {l : List String}
    (hch : List.Chain' (fun a b => Edge servers b a) (x :: l))
    {y : String} (hy : y ∈ l) :
    Relation.TransGen (Edge servers) y x := by
  induction l generalizing x with
  | nil => simp at hy
  | cons z l2 ih =>
    have hzx : Edge servers z x := (List.chain'_cons.1 hch).1
    have htail : List.Chain' (fun a b => Edge servers b a) (z :: l2) :=
      (List.chain'_cons.1 hch).2
    rcases List.mem_cons.1 hy with hy | hy
    · subst hy
      exact Relation.TransGen.single hzx
    · exact (ih htail hy).trans (Relation.TransGen.single hzx)

/-- If the dependency-loop of the checker reports `cycle s d`, both
named servers lie on a dependency cycle. -/
theorem checkDeps_cycle_sound (servers : ServersCfg) (fuel : Nat)
    (hdfs : ∀ v visited stack s d,
      List.Chain' (fun a b => Edge servers b a) stack →
      (∀ hd, stack.head? = some hd → Edge servers hd v) →
      checkDfs servers fuel v visited stack = .cycle s d →
      Relation.TransGen (Edge servers) d d ∧
        Relation.TransGen (Edge servers) s s) :
    ∀ ds v visited stack s d,
      List.Chain' (fun a b => Edge servers b a) stack →
      stack.head? = some v →
      (∀ x ∈ ds, Edge servers v x) →
      checkDeps servers fuel ds v visited stack = .cycle s d →
      Relation.TransGen (Edge servers) d d ∧
        Relation.TransGen (Edge servers) s s := by
  intro ds
  induction ds with
  | nil =>
    intro v visited stack s d _ _ _ hres
    rw [checkDeps] at hres
    exact absurd hres (by simp)
  | cons d0 rest ih =>
    intro v visited stack s d hch hhd hds hres
    rw [checkDeps] at hres
    by_cases hv : d0 ∈ visited
    · rw [if_pos hv] at hres
      by_cases hst : d0 ∈ stack
      · rw [if_pos hst] at hres
        cases hres
        have hedge : Edge servers v d0 := hds d0 (by simp)
        cases hstack : stack with
        | nil =>
          rw [hstack] at hhd
          simp at hhd
        | cons top stl =>
          rw [hstack] at hhd
          simp only [List.head?_cons, Option.some.injEq] at hhd
          rw [hstack] at hst hch
          rw [hhd] at hst hch
          rcases List.mem_cons.1 hst with hdv | hdv
          · rw [hdv] at hedge
            rw [hdv]
            exact ⟨Relation.TransGen.single hedge, Relation.TransGen.single hedge⟩
          · have hpath : Relation.TransGen (Edge servers) d0 v :=
              chain_mem_transGen hch hdv
            exact ⟨hpath.trans (Relation.TransGen.single hedge),
              (Relation.TransGen.single hedge).trans hpath⟩
      · rw [if_neg hst] at hres
        exact ih v visited stack s d hch hhd
          (fun x hx => hds x (List.mem_cons_of_mem _ hx)) hres
    · rw [if_neg hv] at hres
      have hedge : Edge servers v d0 := hds d0 (by simp)
      have hhead : ∀ hd2, stack.head? = some hd2 → Edge servers hd2 d0 := by
        intro hd2 hhd2
        rw [hhd] at hhd2
        injection hhd2 with h3
        rw [← h3]
        exact hedge
      cases hcall : checkDfs servers fuel d0 visited stack with
      | ok visited2 =>
        rw [hcall] at hres
        exact ih v visited2 stack s d hch hhd
          (fun x hx => hds x (List.mem_cons_of_mem _ hx)) hres
      | cycle s2 d2 =>
        rw [hcall] at hres
        cases hres
        exact hdfs d0 visited stack s d hch hhead hcall
      | fuelOut =>
        rw [hcall] at hres
        exact absurd hres (by simp)

theorem checkDfs_cycle_sound (servers : ServersCfg) :
    ∀ fuel v visited stack s d,
      List.Chain' (fun a b => Edge servers b a) stack →
      (∀ hd, stack.head? = some hd → Edge servers hd v) →
      checkDfs servers fuel v visited stack = .cycle s d →
      Relation.TransGen (Edge servers) d d ∧
        Relation.TransGen (Edge servers) s s := by
  intro fuel
  induction fuel with
  | zero =>
    intro v visited stack s d _ _ hres
    rw [checkDfs] at hres
    exact absurd hres (by simp)
  | succ fuel ih =>
    intro v visited stack s d hch hhd hres
    rw [checkDfs] at hres
    refine checkDeps_cycle_sound servers fuel ih (depsOf servers v) v
      (v :: visited) (v :: stack) s d ?_ rfl (fun x hx => hx) hres
    cases stack with
    | nil => simp
    | cons top stl =>
      rw [List.chain'_cons]
      exact ⟨hhd top rfl, hch⟩

theorem checkAll_cycle_sound (servers : ServersCfg) (fuel : Nat) :
    ∀ names visited s d,
      checkAll servers fuel names visited = .cycle s d →
      Relation.TransGen (Edge servers) d d ∧
        Relation.TransGen (Edge servers) s s := by
  intro names
  induction names with
  | nil =>
    intro visited s d hres
    rw [checkAll] at hres
    exact absurd hres (by simp)
  | cons n rest ih =>
    intro visited s d hres
    rw [checkAll] at hres
    by_cases hv : n ∈ visited
    · rw [if_pos hv] at hres
      exact ih visited s d hres
    · rw [if_neg hv] at hres
      cases hcall : checkDfs servers fuel n visited [] with
      | ok visited2 =>
        rw [hcall] at hres
        exact ih visited2 s d hres
      | cycle s2 d2 =>
        rw [hcall] at hres
        cases hres
        exact checkDfs_cycle_sound servers fuel n visited [] s d
          (by simp) (fun hd2 hhd2 => by simp at hhd2) hcall
      | fuelOut =>
        rw [hcall] at hres
        exact absurd hres (by simp)

/-! #### With enough fuel the checker never exhausts it, and a normal
return certifies a topological rank on the visited nodes. -/

/-- Black-node invariant of the checker: every visited node that is off
the recursion stack has all its dependencies visited, off the stack, and
of strictly smaller rank. -/
def RankInv (servers : ServersCfg) (visited stack : List String)
    (rank : String → Nat) : Prop :=
  ∀ x, x ∈ visited → x ∉ stack →
    ∀ d ∈ depsOf servers x, d ∈ visited ∧ d ∉ stack ∧ rank d < rank x

theorem nodup_subset_length {l₁ l₂ : List String} (hnd : l₁.Nodup)
    (hsub : l₁ ⊆ l₂) : l₁.length ≤ l₂.length := by
  calc l₁.length = l₁.toFinset.card := (List.toFinset_card_of_nodup hnd).symm
    _ ≤ l₂.toFinset.card := Finset.card_le_card (fun x hx => by
        rw [List.mem_toFinset] at hx ⊢
        exact hsub hx)
    _ ≤ l₂.length := l₂.toFinset_card_le

theorem le_foldr_max {l : List Nat} {a : Nat} (h : a ∈ l) :
    a ≤ l.foldr max 0 := by
  induction l with
  | nil => simp at h
  | cons b t ih =>
    rcases List.mem_cons.1 h with h | h
    · rw [h, List.foldr_cons]
      exact le_max_left _ _
    · rw [List.foldr_cons]
      exact le_trans (ih h) (le_max_right _ _)

/-- Pushing an unvisited node onto visited set and stack preserves the
black-node invariant. -/
theorem RankInv_push {servers : ServersCfg} {visited stack : List String}
    {rank : String → Nat} {v : String}
    (hinv : RankInv servers visited stack rank) (hv : v ∉ visited) :
    RankInv servers (v :: visited) (v :: stack) rank := by
  intro x hx hxs d hd
  have hxv : x ≠ v := fun hc => hxs (by rw [hc]; exact List.mem_cons_self _ _)
  have hx2 : x ∈ visited := by
    rcases List.mem_cons.1 hx with h | h
    · exact absurd h hxv
    · exact h
  have hxs2 : x ∉ stack := fun hc => hxs (List.mem_cons_of_mem _ hc)
  obtain ⟨h1, h2, h3⟩ := hinv x hx2 hxs2 d hd
  have hdv : d ≠ v := fun hc => hv (hc ▸ h1)
  exact ⟨List.mem_cons_of_mem _ h1,
    fun hc => (List.mem_cons.1 hc).elim hdv h2, h3⟩

/-- Popping the top of the stack preserves the invariant when every
dependency of the popped node has become black, by giving the popped
node a fresh maximal rank. -/
theorem RankInv_pop {servers : ServersCfg} {visited stack : List String}
    {rank : String → Nat} {v : String}
    (hinv : RankInv servers visited (v :: stack) rank)
    (hdeps : ∀ d ∈ depsOf servers v, d ∈ visited ∧ d ∉ v :: stack)
    (hv : v ∈ visited) :
    ∃ rank2, RankInv servers visited stack rank2 := by
  classical
  set N : Nat := (((depsOf servers v).map rank).foldr max 0) + 1 with hN
  refine ⟨fun x => if x = v then N else rank x, ?_⟩
  intro x hx hxs d hd
  by_cases hxv : x = v
  · subst hxv
    obtain ⟨h1, h2⟩ := hdeps d hd
    have hdx : d ≠ x := fun hc => h2 (by rw [← hc]; exact List.mem_cons_self _ _)
    have hds : d ∉ stack := fun hc => h2 (List.mem_cons_of_mem _ hc)
    refine ⟨h1, hds, ?_⟩
    show (if d = x then N else rank d) < (if x = x then N else rank x)
    rw [if_neg hdx, if_pos rfl]
    have hle : rank d ≤ ((depsOf servers x).map rank).foldr max 0 :=
      le_foldr_max (List.mem_map_of_mem rank hd)
    omega
  · have hxs2 : x ∉ v :: stack := fun hc =>
      (List.mem_cons.1 hc).elim hxv hxs
    obtain ⟨h1, h2, h3⟩ := hinv x hx hxs2 d hd
    have hdv : d ≠ v := fun hc => h2 (by rw [← hc]; exact List.mem_cons_self _ _)
    have hds : d ∉ stack := fun hc => h2 (List.mem_cons_of_mem _ hc)
    refine ⟨h1, hds, ?_⟩
    show (if d = v then N else rank d) < (if x = v then N else rank x)
    rw [if_neg hdv, if_neg hxv]
    exact h3

/-- Specification of the `for dep in ...` loop, assuming the
specification of the recursive `dfs` at the same fuel. -/
theorem checkDeps_ok_spec (servers : ServersCfg)
    (hclosed : ∀ u, ∀ d ∈ depsOf servers u, d ∈ keysOf servers) (fuel : Nat)
    (hdfs : ∀ v visited stack,
      v ∉ visited → stack ⊆ visited → visited.Nodup →
      visited ⊆ keysOf servers → v ∈ keysOf servers →
      (∃ rank, RankInv servers visited stack rank) →
      (keysOf servers).length + 1 ≤ fuel + visited.length →
      checkDfs servers fuel v visited stack ≠ .fuelOut ∧
      ∀ visited2, checkDfs servers fuel v visited stack = .ok visited2 →
        (∃ new, visited2 = new ++ visited) ∧ v ∈ visited2 ∧
        visited2.Nodup ∧ visited2 ⊆ keysOf servers ∧
        (∃ rank2, RankInv servers visited2 stack rank2)) :
    ∀ ds v visited stack,
      (∀ x ∈ ds, x ∈ keysOf servers) → stack ⊆ visited → visited.Nodup →
      visited ⊆ keysOf servers →
      (∃ rank, RankInv servers visited stack rank) →
      (keysOf servers).length + 1 ≤ fuel + visited.length →
      checkDeps servers fuel ds v visited stack ≠ .fuelOut ∧
      ∀ visited2, checkDeps servers fuel ds v visited stack = .ok visited2 →
        (∃ new, visited2 = new ++ visited) ∧
        visited2.Nodup ∧ visited2 ⊆ keysOf servers ∧
        (∃ rank2, RankInv servers visited2 stack rank2) ∧
        (∀ x ∈ ds, x ∈ visited2 ∧ x ∉ stack) := by
  intro ds
  induction ds with
  | nil =>
    intro v visited stack _ _ hnd hsubk hrank _
    rw [checkDeps]
    refine ⟨by simp, ?_⟩
    intro visited2 heq
    injection heq with heq
    rw [← heq]
    exact ⟨⟨[], rfl⟩, hnd, hsubk, hrank, by simp⟩
  | cons d0 rest ih =>
    intro v visited stack hks hst hnd hsubk hrank hfuel
    rw [checkDeps]
    by_cases hv : d0 ∈ visited
    · rw [if_pos hv]
      by_cases hstm : d0 ∈ stack
      · rw [if_pos hstm]
        exact ⟨by simp, fun visited2 heq => absurd heq (by simp)⟩
      · rw [if_neg hstm]
        obtain ⟨hne, hok⟩ := ih v visited stack
          (fun x hx => hks x (List.mem_cons_of_mem _ hx)) hst hnd hsubk hrank hfuel
        refine ⟨hne, ?_⟩
        intro visited2 heq
        obtain ⟨hnew, hnd2, hsubk2, hrank2, hblack⟩ := hok visited2 heq
        refine ⟨hnew, hnd2, hsubk2, hrank2, ?_⟩
        intro x hx
        rcases List.mem_cons.1 hx with hx | hx
        · subst hx
          obtain ⟨new, hnew2⟩ := hnew
          exact ⟨by rw [hnew2]; exact List.mem_append_right _ hv, hstm⟩
        · exact hblack x hx
    · rw [if_neg hv]
      have hd0k : d0 ∈ keysOf servers := hks d0 (by simp)
      obtain ⟨hne1, hok1⟩ := hdfs d0 visited stack hv hst hnd hsubk hd0k hrank hfuel
      cases hcall : checkDfs servers fuel d0 visited stack with
      | fuelOut => exact absurd hcall hne1
      | cycle s2 d2 =>
        exact ⟨by simp, fun visited2 heq => absurd heq (by simp)⟩
      | ok visitedA =>
        obtain ⟨⟨new, hnewA⟩, hmemA, hndA, hsubkA, hrankA⟩ := hok1 visitedA hcall
        have hstA : stack ⊆ visitedA := by
          rw [hnewA]
          exact fun x hx => List.mem_append_right _ (hst hx)
        have hlenA : visited.length ≤ visitedA.length := by
          rw [hnewA]
          simp only [List.length_append]
          omega
        obtain ⟨hne2, hok2⟩ := ih v visitedA stack
          (fun x hx => hks x (List.mem_cons_of_mem _ hx)) hstA hndA hsubkA hrankA
          (by omega)
        refine ⟨hne2, ?_⟩
        intro visited2 heq
        obtain ⟨⟨new2, hnew2⟩, hnd2, hsubk2, hrank2, hblack⟩ := hok2 visited2 heq
        refine ⟨⟨new2 ++ new, by rw [hnew2, hnewA, List.append_assoc]⟩,
          hnd2, hsubk2, hrank2, ?_⟩
        intro x hx
        rcases List.mem_cons.1 hx with hx | hx
        · subst hx
          refine ⟨by rw [hnew2]; exact List.mem_append_right _ hmemA, ?_⟩
          intro hc
          exact hv (hst hc)
        · exact hblack x hx

/-- Specification of the recursive `dfs` of the cycle checker: with
enough fuel it never exhausts it, and on normal return the visited set
has grown by the node, stayed duplicate-free inside the declared
servers, and still admits a topological rank for its black part. -/
theorem checkDfs_ok_spec (servers : ServersCfg)
    (hclosed : ∀ u, ∀ d ∈ depsOf servers u, d ∈ keysOf servers) :
    ∀ fuel, ∀ v visited stack,
      v ∉ visited → stack ⊆ visited → visited.Nodup →
      visited ⊆ keysOf servers → v ∈ keysOf servers →
      (∃ rank, RankInv servers visited stack rank) →
      (keysOf servers).length + 1 ≤ fuel + visited.length →
      checkDfs servers fuel v visited stack ≠ .fuelOut ∧
      ∀ visited2, checkDfs servers fuel v visited stack = .ok visited2 →
        (∃ new, visited2 = new ++ visited) ∧ v ∈ visited2 ∧
        visited2.Nodup ∧ visited2 ⊆ keysOf servers ∧
        (∃ rank2, RankInv servers visited2 stack rank2) := by
  intro fuel
  induction fuel with
  | zero =>
    intro v visited stack hv hst hnd hsubk hvk hrank hfuel
    exfalso
    have hlen : visited.length ≤ (keysOf servers).length :=
      nodup_subset_length hnd hsubk
    omega
  | succ fuel ih =>
    intro v visited stack hv hst hnd hsubk hvk hrank hfuel
    rw [checkDfs]
    have hks : ∀ x ∈ depsOf servers v, x ∈ keysOf servers := hclosed v
    have hst2 : v :: stack ⊆ v :: visited := by
      intro x hx
      rcases List.mem_cons.1 hx with hx | hx
      · rw [hx]; exact List.mem_cons_self _ _
      · exact List.mem_cons_of_mem _ (hst hx)
    have hnd2 : (v :: visited).Nodup := List.nodup_cons.2 ⟨hv, hnd⟩
    have hsubk2 : v :: visited ⊆ keysOf servers := by
      intro x hx
      rcases List.mem_cons.1 hx with hx | hx
      · rw [hx]; exact hvk
      · exact hsubk hx
    have hrank2 : ∃ rank, RankInv servers (v :: visited) (v :: stack) rank := by
      obtain ⟨rank, hr⟩ := hrank
      exact ⟨rank, RankInv_push hr hv⟩
    obtain ⟨hne, hok⟩ := checkDeps_ok_spec servers hclosed fuel ih
      (depsOf servers v) v (v :: visited) (v :: stack) hks hst2 hnd2 hsubk2 hrank2
      (by simp only [List.length_cons]; omega)
    refine ⟨hne, ?_⟩
    intro visited2 heq
    obtain ⟨⟨new, hnew⟩, hnd3, hsubk3, ⟨rank3, hrank3⟩, hblack⟩ := hok visited2 heq
    have hvmem : v ∈ visited2 := by
      rw [hnew]
      exact List.mem_append_right _ (List.mem_cons_self _ _)
    refine ⟨⟨new ++ [v], by rw [hnew]; simp⟩, hvmem, hnd3, hsubk3, ?_⟩
    exact RankInv_pop hrank3 (fun d hd => (hblack d hd).imp_right id |>.imp_left id) hvmem

theorem Edge_src_mem {servers : ServersCfg} {u d : String}
    (h : Edge servers u d) : u ∈ keysOf servers := by
  rw [← lookup_isSome_iff]
  unfold Edge depsOf at h
  cases hl : servers.lookup u with
  | none =>
    rw [hl] at h
    simp at h
  | some l => rfl

theorem checkAll_ok_spec (servers : ServersCfg)
    (hclosed : ∀ u, ∀ d ∈ depsOf servers u, d ∈ keysOf servers) :
    ∀ names visited,
      (∀ x ∈ names, x ∈ keysOf servers) → visited.Nodup →
      visited ⊆ keysOf servers →
      (∃ rank, RankInv servers visited [] rank) →
      checkAll servers (servers.length + 1) names visited ≠ .fuelOut ∧
      ∀ visitedF, checkAll servers (servers.length + 1) names visited = .ok visitedF →
        (∀ x ∈ names, x ∈ visitedF) ∧ (∃ new, visitedF = new ++ visited) ∧
        visitedF.Nodup ∧ visitedF ⊆ keysOf servers ∧
        (∃ rank, RankInv servers visitedF [] rank) := by
  have hkl : (keysOf servers).length = servers.length := List.length_map _ _
  intro names
  induction names with
  | nil =>
    intro visited hns hnd hsubk hrank
    rw [checkAll]
    refine ⟨by simp, ?_⟩
    intro visitedF heq
    injection heq with heq
    rw [← heq]
    exact ⟨by simp, ⟨[], rfl⟩, hnd, hsubk, hrank⟩
  | cons n rest ih =>
    intro visited hns hnd hsubk hrank
    rw [checkAll]
    by_cases hv : n ∈ visited
    · rw [if_pos hv]
      obtain ⟨hne, hok⟩ := ih visited
        (fun x hx => hns x (List.mem_cons_of_mem _ hx)) hnd hsubk hrank
      refine ⟨hne, ?_⟩
      intro visitedF heq
      obtain ⟨hmem, ⟨new, hnew⟩, hndF, hsubkF, hrankF⟩ := hok visitedF heq
      refine ⟨?_, ⟨new, hnew⟩, hndF, hsubkF, hrankF⟩
      intro x hx
      rcases List.mem_cons.1 hx with hx | hx
      · rw [hx, hnew]
        exact List.mem_append_right _ hv
      · exact hmem x hx
    · rw [if_neg hv]
      have hnk : n ∈ keysOf servers := hns n (by simp)
      obtain ⟨hne1, hok1⟩ := checkDfs_ok_spec servers hclosed
        (servers.length + 1) n visited [] hv (by simp) hnd hsubk hnk hrank
        (by omega)
      cases hcall : checkDfs servers (servers.length + 1) n visited [] with
      | fuelOut => exact absurd hcall hne1
      | cycle s2 d2 =>
        exact ⟨by simp, fun visitedF heq => absurd heq (by simp)⟩
      | ok visitedA =>
        obtain ⟨⟨new, hnewA⟩, hmemA, hndA, hsubkA, hrankA⟩ := hok1 visitedA hcall
        obtain ⟨hne2, hok2⟩ := ih visitedA
          (fun x hx => hns x (List.mem_cons_of_mem _ hx)) hndA hsubkA hrankA
        refine ⟨hne2, ?_⟩
        intro visitedF heq
        obtain ⟨hmem, ⟨new2, hnew2⟩, hndF, hsubkF, hrankF⟩ := hok2 visitedF heq
        refine ⟨?_, ⟨new2 ++ new, by rw [hnew2, hnewA, List.append_assoc]⟩,
          hndF, hsubkF, hrankF⟩
        intro x hx
        rcases List.mem_cons.1 hx with hx | hx
        · rw [hx, hnew2]
          exact List.mem_append_right _ hmemA
        · exact hmem x hx

/-- A successful cycle check certifies a rank function decreasing along
every dependency edge. -/
theorem checkCircular_ok_rank {servers : ServersCfg}
    (hclosed : ∀ u, ∀ d ∈ depsOf servers u, d ∈ keysOf servers)
    {vis : List String}
    (h : checkCircularDependencies servers = .ok vis) :
    ∃ rank : String → Nat, ∀ u d, Edge servers u d → rank d < rank u := by
  obtain ⟨hne, hok⟩ := checkAll_ok_spec servers hclosed (keysOf servers) []
    (fun x hx => hx) (by simp) (by simp) ⟨fun _ => 0, fun x hx => by simp at hx⟩
  obtain ⟨hmem, _, _, _, ⟨rank, hrank⟩⟩ := hok vis h
  refine ⟨rank, ?_⟩
  intro u d hedge
  have hu : u ∈ keysOf servers := Edge_src_mem hedge
  have huv : u ∈ vis := hmem u hu
  exact (hrank u huv (by simp) d hedge).2.2

theorem transGen_rank_lt {servers : ServersCfg} {rank : String → Nat}
    (hrank : ∀ u d, Edge servers u d → rank d < rank u)
    {a b : String} (h : Relation.TransGen (Edge servers) a b) :
    rank b < rank a := by
  induction h with
  | single h => exact hrank _ _ h
  | tail h hlast ih => exact lt_trans (hrank _ _ hlast) ih

/-- The cycle checker never runs out of fuel. -/
theorem checkCircular_ne_fuelOut {servers : ServersCfg}
    (hclosed : ∀ u, ∀ d ∈ depsOf servers u, d ∈ keysOf servers) :
    checkCircularDependencies servers ≠ .fuelOut :=
  (checkAll_ok_spec servers hclosed (keysOf servers) []
    (fun x hx => hx) (by simp) (by simp) ⟨fun _ => 0, fun x hx => by simp at hx⟩).1

/-! #### `get_startup_order` produces a dependency-closed postorder. -/

/-- Orders in which every element is preceded by all its declared
dependencies. -/
inductive TopoList (servers : ServersCfg) : List String → Prop where
  | nil : TopoList servers []
  | snoc (l : List String) (v : String) : TopoList servers l →
      (∀ d ∈ depsOf servers v, d ∈ l) → TopoList servers (l ++ [v])

/-- Specification of the `for dep in ...` loop of `get_startup_order`,
assuming the specification of its recursive `dfs` at the same fuel.
`grey` is the ghost set of in-progress ancestors (`visited` minus the
emitted order); every `grey` node outranks every node of `ds`. -/
theorem orderDeps_spec (servers : ServersCfg)
    (hclosed : ∀ u, ∀ d ∈ depsOf servers u, d ∈ keysOf servers)
    (rank : String → Nat)
    (hrank : ∀ u d, Edge servers u d → rank d < rank u) (fuel : Nat)
    (hdfs : ∀ v visited order (grey : List String),
      (∀ x, x ∈ visited ↔ x ∈ order ∨ x ∈ grey) →
      (∀ x ∈ order, x ∉ grey) →
      TopoList servers order → order.Nodup → order ⊆ keysOf servers →
      (∀ g ∈ grey, rank v < rank g) →
      v ∈ keysOf servers → visited.Nodup → visited ⊆ keysOf servers →
      (keysOf servers).length + 1 ≤ fuel + visited.length →
      orderDfs servers fuel v (visited, order) ≠ none ∧
      ∀ visited2 order2,
        orderDfs servers fuel v (visited, order) = some (visited2, order2) →
        (∃ ext, order2 = order ++ ext ∧ ∀ x ∈ ext, rank x ≤ rank v) ∧
        (∀ x, x ∈ visited2 ↔ x ∈ order2 ∨ x ∈ grey) ∧
        (∀ x ∈ order2, x ∉ grey) ∧
        TopoList servers order2 ∧ order2.Nodup ∧ order2 ⊆ keysOf servers ∧
        v ∈ order2 ∧ visited2.Nodup ∧ visited2 ⊆ keysOf servers ∧
        (∃ newv, visited2 = newv ++ visited)) :
    ∀ ds v visited order (grey : List String),
      (∀ x ∈ ds, Edge servers v x) →
      (∀ x, x ∈ visited ↔ x ∈ order ∨ x ∈ grey) →
      (∀ x ∈ order, x ∉ grey) →
      TopoList servers order → order.Nodup → order ⊆ keysOf servers →
      (∀ g ∈ grey, rank v ≤ rank g) →
      visited.Nodup → visited ⊆ keysOf servers →
      (keysOf servers).length + 1 ≤ fuel + visited.length →
      orderDeps servers fuel ds (visited, order) ≠ none ∧
      ∀ visited2 order2,
        orderDeps servers fuel ds (visited, order) = some (visited2, order2) →
        (∃ ext, order2 = order ++ ext ∧ ∀ x ∈ ext, rank x < rank v) ∧
        (∀ x, x ∈ visited2 ↔ x ∈ order2 ∨ x ∈ grey) ∧
        (∀ x ∈ order2, x ∉ grey) ∧
        TopoList servers order2 ∧ order2.Nodup ∧ order2 ⊆ keysOf servers ∧
        (∀ x ∈ ds, x ∈ order2) ∧ visited2.Nodup ∧ visited2 ⊆ keysOf servers ∧
        (∃ newv, visited2 = newv ++ visited) := by
  intro ds
  induction ds with
  | nil =>
    intro v visited order grey _ hiff hdis hT hndo hsubo _ hndv hsubv _
    rw [orderDeps]
    refine ⟨by simp, ?_⟩
    intro visited2 order2 heq
    injection heq with heq
    injection heq with h1 h2
    rw [← h1, ← h2]
    exact ⟨⟨[], by simp, by simp⟩, hiff, hdis, hT, hndo, hsubo, by simp,
      hndv, hsubv, ⟨[], rfl⟩⟩
  | cons d0 rest ih =>
    intro v visited order grey hds hiff hdis hT hndo hsubo hgrey hndv hsubv hfuel
    rw [orderDeps]
    have hedge : Edge servers v d0 := hds d0 (by simp)
    have hd0k : d0 ∈ keysOf servers := hclosed v d0 hedge
    have hgrey0 : ∀ g ∈ grey, rank d0 < rank g := fun g hg =>
      lt_of_lt_of_le (hrank v d0 hedge) (hgrey g hg)
    obtain ⟨hne1, hok1⟩ := hdfs d0 visited order grey hiff hdis hT hndo hsubo
      hgrey0 hd0k hndv hsubv hfuel
    cases hcall : orderDfs servers fuel d0 (visited, order) with
    | none => exact absurd hcall hne1
    | some st2 =>
      obtain ⟨visitedA, orderA⟩ := st2
      obtain ⟨⟨ext, hext, hextrk⟩, hiffA, hdisA, hTA, hndoA, hsuboA, hd0A,
        hndvA, hsubvA, ⟨newv, hnewv⟩⟩ := hok1 visitedA orderA hcall
      have hfuelA : (keysOf servers).length + 1 ≤ fuel + visitedA.length := by
        rw [hnewv]
        simp only [List.length_append]
        omega
      obtain ⟨hne2, hok2⟩ := ih v visitedA orderA grey
        (fun x hx => hds x (List.mem_cons_of_mem _ hx)) hiffA hdisA hTA hndoA
        hsuboA hgrey hndvA hsubvA hfuelA
      refine ⟨hne2, ?_⟩
      intro visited2 order2 heq
      obtain ⟨⟨ext2, hext2, hext2rk⟩, hiff2, hdis2, hT2, hndo2, hsubo2, hrest,
        hndv2, hsubv2, ⟨newv2, hnewv2⟩⟩ := hok2 visited2 order2 heq
      refine ⟨⟨ext ++ ext2, by rw [hext2, hext, List.append_assoc], ?_⟩,
        hiff2, hdis2, hT2, hndo2, hsubo2, ?_, hndv2, hsubv2,
        ⟨newv2 ++ newv, by rw [hnewv2, hnewv, List.append_assoc]⟩⟩
      · intro x hx
        rcases List.mem_append.1 hx with hx | hx
        · exact lt_of_le_of_lt (hextrk x hx) (hrank v d0 hedge)
        · exact hext2rk x hx
      · intro x hx
        rcases List.mem_cons.1 hx with hx | hx
        · rw [hx, hext2]
          exact List.mem_append_left _ hd0A
        · exact hrest x hx

/-- Specification of the recursive `dfs` of `get_startup_order`. -/
theorem orderDfs_spec (servers : ServersCfg)
    (hclosed : ∀ u, ∀ d ∈ depsOf servers u, d ∈ keysOf servers)
    (rank : String → Nat)
    (hrank : ∀ u d, Edge servers u d → rank d < rank u) :
    ∀ fuel v visited order (grey : List String),
      (∀ x, x ∈ visited ↔ x ∈ order ∨ x ∈ grey) →
      (∀ x ∈ order, x ∉ grey) →
      TopoList servers order → order.Nodup → order ⊆ keysOf servers →
      (∀ g ∈ grey, rank v < rank g) →
      v ∈ keysOf servers → visited.Nodup → visited ⊆ keysOf servers →
      (keysOf servers).length + 1 ≤ fuel + visited.length →
      orderDfs servers fuel v (visited, order) ≠ none ∧
      ∀ visited2 order2,
        orderDfs servers fuel v (visited, order) = some (visited2, order2) →
        (∃ ext, order2 = order ++ ext ∧ ∀ x ∈ ext, rank x ≤ rank v) ∧
        (∀ x, x ∈ visited2 ↔ x ∈ order2 ∨ x ∈ grey) ∧
        (∀ x ∈ order2, x ∉ grey) ∧
        TopoList servers order2 ∧ order2.Nodup ∧ order2 ⊆ keysOf servers ∧
        v ∈ order2 ∧ visited2.Nodup ∧ visited2 ⊆ keysOf servers ∧
        (∃ newv, visited2 = newv ++ visited) := by
  intro fuel
  induction fuel with
  | zero =>
    intro v visited order grey hiff hdis hT hndo hsubo hgrey hvk hndv hsubv hfuel
    exfalso
    have hlen : visited.length ≤ (keysOf servers).length :=
      nodup_subset_length hndv hsubv
    omega
  | succ fuel ih =>
    intro v visited order grey hiff hdis hT hndo hsubo hgrey hvk hndv hsubv hfuel
    rw [orderDfs]
    by_cases hv : v ∈ visited
    · rw [if_pos hv]
      have hvo : v ∈ order := by
        rcases (hiff v).1 hv with h | h
        · exact h
        · exact absurd (hgrey v h) (lt_irrefl _)
      refine ⟨by simp, ?_⟩
      intro visited2 order2 heq
      injection heq with heq
      injection heq with h1 h2
      rw [← h1, ← h2]
      exact ⟨⟨[], by simp, by simp⟩, hiff, hdis, hT, hndo, hsubo, hvo,
        hndv, hsubv, ⟨[], rfl⟩⟩
    · rw [if_neg hv]
      have hvno : v ∉ order := fun hc => hv ((hiff v).2 (Or.inl hc))
      have hiff2 : ∀ x, x ∈ v :: visited ↔ x ∈ order ∨ x ∈ v :: grey := by
        intro x
        constructor
        · intro hx
          rcases List.mem_cons.1 hx with hx | hx
          · exact Or.inr (by rw [hx]; exact List.mem_cons_self _ _)
          · rcases (hiff x).1 hx with h | h
            · exact Or.inl h
            · exact Or.inr (List.mem_cons_of_mem _ h)
        · intro hx
          rcases hx with hx | hx
          · exact List.mem_cons_of_mem _ ((hiff x).2 (Or.inl hx))
          · rcases List.mem_cons.1 hx with hx | hx
            · rw [hx]; exact List.mem_cons_self _ _
            · exact List.mem_cons_of_mem _ ((hiff x).2 (Or.inr hx))
      have hdis2 : ∀ x ∈ order, x ∉ v :: grey := by
        intro x hx hc
        rcases List.mem_cons.1 hc with hc | hc
        · rw [hc] at hx; exact hvno hx
        · exact hdis x hx hc
      have hgrey2 : ∀ g ∈ v :: grey, rank v ≤ rank g := by
        intro g hg
        rcases List.mem_cons.1 hg with hg | hg
        · rw [hg]
        · exact le_of_lt (hgrey g hg)
      have hndv2 : (v :: visited).Nodup := List.nodup_cons.2 ⟨hv, hndv⟩
      have hsubv2 : v :: visited ⊆ keysOf servers := by
        intro x hx
        rcases List.mem_cons.1 hx with hx | hx
        · rw [hx]; exact hvk
        · exact hsubv hx
      obtain ⟨hne, hok⟩ := orderDeps_spec servers hclosed rank hrank fuel ih
        (depsOf servers v) v (v :: visited) order (v :: grey)
        (fun x hx => hx) hiff2 hdis2 hT hndo hsubo hgrey2 hndv2 hsubv2
        (by simp only [List.length_cons]; omega)
      cases hcall : orderDeps servers fuel (depsOf servers v)
          (v :: visited, order) with
      | none => exact absurd hcall hne
      | some st2 =>
        obtain ⟨visitedB, orderB⟩ := st2
        obtain ⟨⟨ext, hext, hextrk⟩, hiffB, hdisB, hTB, hndoB, hsuboB, hdeps,
          hndvB, hsubvB, ⟨newv, hnewv⟩⟩ := hok visitedB orderB hcall
        have hvB : v ∉ orderB := fun hc => hdisB v hc (List.mem_cons_self _ _)
        refine ⟨by simp, ?_⟩
        intro visited2 order2 heq
        injection heq with heq
        injection heq with h1 h2
        rw [← h1, ← h2]
        refine ⟨⟨ext ++ [v], by rw [hext, List.append_assoc], ?_⟩, ?_, ?_,
          TopoList.snoc orderB v hTB hdeps, ?_, ?_, ?_, ?_, hsubvB,
          ⟨newv ++ [v], by rw [hnewv]; simp⟩⟩
        · intro x hx
          rcases List.mem_append.1 hx with hx | hx
          · exact le_of_lt (lt_of_lt_of_le (by exact hextrk x hx |> lt_of_lt_of_le <| le_refl _) (le_refl _))
          · simp only [List.mem_singleton] at hx
            rw [hx]
        · intro x
          rw [List.mem_append]
          constructor
          · intro hx
            rcases (hiffB x).1 hx with h | h
            · exact Or.inl (Or.inl h)
            · rcases List.mem_cons.1 h with h | h
              · exact Or.inl (Or.inr (by simp [h]))
              · exact Or.inr h
          · intro hx
            rcases hx with hx | hx
            · rcases hx with hx | hx
              · exact (hiffB x).2 (Or.inl hx)
              · simp only [List.mem_singleton] at hx
                exact (hiffB x).2 (Or.inr (by rw [hx]; exact List.mem_cons_self _ _))
            · exact (hiffB x).2 (Or.inr (List.mem_cons_of_mem _ hx))
        · intro x hx hc
          rcases List.mem_append.1 hx with hx | hx
          · exact hdisB x hx (List.mem_cons_of_mem _ hc)
          · simp only [List.mem_singleton] at hx
            rw [hx] at hc
            exact absurd (hgrey v hc) (lt_irrefl _)
        · refine List.Nodup.append hndoB (List.nodup_singleton _) ?_
          intro x hx hxs
          simp only [List.mem_singleton] at hxs
          rw [hxs] at hx
          exact hvB hx
        · intro x hx
          rcases List.mem_append.1 hx with hx | hx
          · exact hsuboB hx
          · simp only [List.mem_singleton] at hx
            rw [hx]; exact hvk
        · exact List.mem_append_right _ (List.mem_cons_self _ _)
        · exact hndvB

theorem orderAll_spec (servers : ServersCfg)
    (hclosed : ∀ u, ∀ d ∈ depsOf servers u, d ∈ keysOf servers)
    (rank : String → Nat)
    (hrank : ∀ u d, Edge servers u d → rank d < rank u) :
    ∀ names visited order,
      (∀ x ∈ names, x ∈ keysOf servers) →
      (∀ x, x ∈ visited ↔ x ∈ order) →
      TopoList servers order → order.Nodup → order ⊆ keysOf servers →
      visited.Nodup → visited ⊆ keysOf servers →
      orderAll servers (servers.length + 1) names (visited, order) ≠ none ∧
      ∀ visitedF orderF,
        orderAll servers (servers.length + 1) names (visited, order) =
          some (visitedF, orderF) →
        (∃ ext, orderF = order ++ ext) ∧
        TopoList servers orderF ∧ orderF.Nodup ∧ orderF ⊆ keysOf servers ∧
        (∀ x ∈ names, x ∈ orderF) ∧
        (∀ x, x ∈ visitedF ↔ x ∈ orderF) ∧
        visitedF.Nodup ∧ visitedF ⊆ keysOf servers := by
  have hkl : (keysOf servers).length = servers.length := List.length_map _ _
  intro names
  induction names with
  | nil =>
    intro visited order _ hiff hT hndo hsubo hndv hsubv
    rw [orderAll]
    refine ⟨by simp, ?_⟩
    intro visitedF orderF heq
    injection heq with heq
    injection heq with h1 h2
    rw [← h1, ← h2]
    exact ⟨⟨[], by simp⟩, hT, hndo, hsubo, by simp, hiff, hndv, hsubv⟩
  | cons n rest ih =>
    intro visited order hns hiff hT hndo hsubo hndv hsubv
    rw [orderAll]
    have hnk : n ∈ keysOf servers := hns n (by simp)
    have hiff2 : ∀ x, x ∈ visited ↔ x ∈ order ∨ x ∈ ([] : List String) := by
      intro x
      rw [hiff x]
      simp
    obtain ⟨hne1, hok1⟩ := orderDfs_spec servers hclosed rank hrank
      (servers.length + 1) n visited order [] hiff2 (by simp) hT hndo hsubo
      (by simp) hnk hndv hsubv (by omega)
    cases hcall : orderDfs servers (servers.length + 1) n (visited, order) with
    | none => exact absurd hcall hne1
    | some st2 =>
      obtain ⟨visitedA, orderA⟩ := st2
      obtain ⟨⟨ext, hext, _⟩, hiffA, _, hTA, hndoA, hsuboA, hnA, hndvA,
        hsubvA, _⟩ := hok1 visitedA orderA hcall
      have hiffA2 : ∀ x, x ∈ visitedA ↔ x ∈ orderA := by
        intro x
        rw [hiffA x]
        simp
      obtain ⟨hne2, hok2⟩ := ih visitedA orderA
        (fun x hx => hns x (List.mem_cons_of_mem _ hx)) hiffA2 hTA hndoA
        hsuboA hndvA hsubvA
      refine ⟨hne2, ?_⟩
      intro visitedF orderF heq
      obtain ⟨⟨ext2, hext2⟩, hTF, hndoF, hsuboF, hmemF, hiffF, hndvF, hsubvF⟩ :=
        hok2 visitedF orderF heq
      refine ⟨⟨ext ++ ext2, by rw [hext2, hext, List.append_assoc]⟩, hTF, hndoF,
        hsuboF, ?_, hiffF, hndvF, hsubvF⟩
      intro x hx
      rcases List.mem_cons.1 hx with hx | hx
      · rw [hx, hext2]
        exact List.mem_append_left _ hnA
      · exact hmemF x hx

/-- In a dependency-closed order without duplicates, every dependency of
a member appears strictly before it. -/
theorem topoList_edge_index {servers : ServersCfg} {order : List String}
    (hT : TopoList servers order) (hnd : order.Nodup) :
    ∀ v d, Edge servers v d → v ∈ order →
      d ∈ order ∧ order.indexOf d < order.indexOf v := by
  induction hT with
  | nil =>
    intro v d _ hv
    simp at hv
  | snoc l w hTl hdeps ih =>
    intro v d hedge hv
    have hndl : l.Nodup := (List.nodup_append.1 hnd).1
    have hwl : w ∉ l := by
      intro hc
      exact (List.nodup_append.1 hnd).2.2 hc (by simp)
    rcases List.mem_append.1 hv with hv | hv
    · obtain ⟨hdl, hidx⟩ := ih hndl v d hedge hv
      refine ⟨List.mem_append_left _ hdl, ?_⟩
      rw [List.indexOf_append_of_mem hdl, List.indexOf_append_of_mem hv]
      exact hidx
    · simp only [List.mem_singleton] at hv
      subst hv
      have hdl : d ∈ l := hdeps d hedge
      refine ⟨List.mem_append_left _ hdl, ?_⟩
      rw [List.indexOf_append_of_mem hdl, List.indexOf_append_of_not_mem hwl]
      have hlt : l.indexOf d < l.length := List.indexOf_lt_length.2 hdl
      omega

/-- Transitive version of `topoList_edge_index`. -/
theorem topoList_transGen_index {servers : ServersCfg} {order : List String}
    (hT : TopoList servers order) (hnd : order.Nodup)
    {v d : String} (h : Relation.TransGen (Edge servers) v d) (hv : v ∈ order) :
    d ∈ order ∧ order.indexOf d < order.indexOf v := by
  induction h with
  | single h1 => exact topoList_edge_index hT hnd _ _ h1 hv
  | tail hvb hedge ih =>
    obtain ⟨hb, hib⟩ := ih
    obtain ⟨hd, hid⟩ := topoList_edge_index hT hnd _ _ hedge hb
    exact ⟨hd, lt_trans hid hib⟩

theorem lookup_mem {l : List (String × α)} {k : String} {v : α}
    (h : l.lookup k = some v) : (k, v) ∈ l := by
  induction l with
  | nil => simp at h
  | cons p rest ih =>
    rw [lookup_cons] at h
    by_cases hk : k = p.1
    · rw [if_pos hk] at h
      injection h with h
      rw [hk, ← h]
      exact List.mem_cons_self _ _
    · rw [if_neg hk] at h
      exact List.mem_cons_of_mem _ (ih h)

/-- Dependency closure over declared entries implies closure of
`depsOf` everywhere (undeclared names have no dependencies). -/
theorem closed_of_entries {servers : ServersCfg}
    (h : ∀ p ∈ servers, ∀ d ∈ p.2, d ∈ keysOf servers) :
    ∀ u, ∀ d ∈ depsOf servers u, d ∈ keysOf servers := by
  intro u d hd
  unfold depsOf at hd
  cases hl : servers.lookup u with
  | none =>
    rw [hl] at hd
    simp at hd
  | some l =>
    rw [hl] at hd
    exact h (u, l) (lookup_mem hl) d hd

/-- C4: for every configuration accepted by the loader (unique names,
declared dependencies, cycle check passed), `get_startup_order` emits a
permutation of the declared server names in which every server appears
strictly after each of its transitive dependencies; and every
configuration whose dependency graph contains a cycle is rejected by
`_check_circular_dependencies` with a configuration error whose two
named servers both lie on a cycle. -/
theorem claim_C4_topological_startup (servers : ServersCfg)
    (hnd : (keysOf servers).Nodup)
    (hclosed : ∀ p ∈ servers, ∀ d ∈ p.2, d ∈ keysOf servers) :
    (∀ vis, checkCircularDependencies servers = .ok vis →
      ∃ order, getStartupOrder servers = some order ∧
        order.Perm (keysOf servers) ∧
        ∀ v d, Relation.TransGen (Edge servers) v d → v ∈ order →
          d ∈ order ∧ order.indexOf d < order.indexOf v) ∧
    ((∃ n, Relation.TransGen (Edge servers) n n) →
      ∃ s d, checkCircularDependencies servers = .cycle s d ∧
        Relation.TransGen (Edge servers) d d ∧
        Relation.TransGen (Edge servers) s s) := by
  have hclosed2 := closed_of_entries hclosed
  constructor
  · intro vis hok
    obtain ⟨rank, hrank⟩ := checkCircular_ok_rank hclosed2 hok
    obtain ⟨hne, hspec⟩ := orderAll_spec servers hclosed2 rank hrank
      (keysOf servers) [] [] (fun x hx => hx) (by simp) TopoList.nil
      (by simp) (by simp) (by simp) (by simp)
    cases hcall : orderAll servers (servers.length + 1) (keysOf servers)
        ([], []) with
    | none => exact absurd hcall hne
    | some stF =>
      obtain ⟨visitedF, orderF⟩ := stF
      obtain ⟨_, hTF, hndoF, hsuboF, hmemF, _, _, _⟩ := hspec visitedF orderF hcall
      refine ⟨orderF, ?_, ?_, ?_⟩
      · rw [getStartupOrder, hcall]
        rfl
      · exact (List.perm_ext_iff_of_nodup hndoF hnd).2
          (fun a => ⟨fun ha => hsuboF ha, fun ha => hmemF a ha⟩)
      · intro v d htg hv
        exact topoList_transGen_index hTF hndoF htg hv
  · rintro ⟨n, hn⟩
    have hne := checkCircular_ne_fuelOut hclosed2
    cases hres : checkCircularDependencies servers with
    | fuelOut => exact absurd hres hne
    | ok vis =>
      exfalso
      obtain ⟨rank, hrank⟩ := checkCircular_ok_rank hclosed2 hres
      exact absurd (transGen_rank_lt hrank hn) (lt_irrefl _)
    | cycle s d =>
      obtain ⟨h1, h2⟩ := checkAll_cycle_sound servers (servers.length + 1)
        (keysOf servers) [] s d hres
      exact ⟨s, d, rfl, h1, h2⟩

/-- Witness for C4 on the three-server chain `a → b → c`: the checker
accepts and the startup order is `[c, b, a]` with `c` before `b` before
`a`; and on the two-cycle `a ↔ b` the checker reports the cycle. -/
theorem claim_C4_topological_startup_witness :
    (∃ order,
      getStartupOrder [("a", ["b"]), ("b", ["c"]), ("c", [])] = some order ∧
      order.Perm (keysOf [("a", ["b"]), ("b", ["c"]), ("c", [])]) ∧
      ∀ v d,
        Relation.TransGen (Edge [("a", ["b"]), ("b", ["c"]), ("c", [])]) v d →
        v ∈ order → d ∈ order ∧ order.indexOf d < order.indexOf v) ∧
    (∃ s d,
      checkCircularDependencies [("a", ["b"]), ("b", ["a"])] = .cycle s d ∧
      Relation.TransGen (Edge [("a", ["b"]), ("b", ["a"])]) d d ∧
      Relation.TransGen (Edge [("a", ["b"]), ("b", ["a"])]) s s) := by
  constructor
  · refine (claim_C4_topological_startup [("a", ["b"]), ("b", ["c"]), ("c", [])]
      (by decide) (by decide)).1 ["c", "b", "a"] ?_
    simp +decide [checkCircularDependencies, checkAll, checkDfs, checkDeps,
      depsOf, keysOf, List.lookup]
  · refine (claim_C4_topological_startup [("a", ["b"]), ("b", ["a"])]
      (by decide) (by decide)).2 ⟨"a", ?_⟩
    have hab : Edge [("a", ["b"]), ("b", ["a"])] "a" "b" := by
      show "b" ∈ depsOf [("a", ["b"]), ("b", ["a"])] "a"
      simp +decide [depsOf, List.lookup]
    have hba : Edge [("a", ["b"]), ("b", ["a"])] "b" "a" := by
      show "a" ∈ depsOf [("a", ["b"]), ("b", ["a"])] "b"
      simp +decide [depsOf, List.lookup]
    exact Relation.TransGen.head hab (Relation.TransGen.single hba)

/-! ### `types.py` / `registry.py` — capabilities and argument validation

JSON values are embedded with Python's `int` / `float` split (floats as
rationals).  `Option Bool` / nested `Option` model the places where the
Python code would raise an exception outside its own error taxonomy
(e.g. a malformed `inputSchema` making `.get` or `in` blow up). -/

/-- A JSON value as manipulated by `validate_params`. -/
inductive JValue where
  | jstr (s : String)
  | jint (n : Int)
  | jfloat (q : ℚ)
  | jbool (b : Bool)
  | jobj (fields : List (String × JValue))
  | jarr (items : List JValue)
  | jnull

/-- The `Tool` dataclass. -/
structure Tool where
  name : String
  description : Option String := none
  inputSchema : List (String × JValue) := []
  title : Option String := none
  annotations : Option (List (String × JValue)) := none
  outputSchema : Option (List (String × JValue)) := none

/-- `Tool._check_type`: `isinstance` against the JSON type map.  Note
that Python `bool` is a subclass of `int`, so booleans satisfy
`integer` and `number`; an unknown type string accepts everything
(`type_map.get` returns `None` and the method returns `True`). -/
def checkType (v : JValue) (expected : String) : Bool :=
  if expected = "string" then
    match v with
    | .jstr _ => true
    | _ => false
  else if expected = "number" then
    match v with
    | .jint _ => true
    | .jfloat _ => true
    | .jbool _ => true
    | _ => false
  else if expected = "integer" then
    match v with
    | .jint _ => true
    | .jbool _ => true
    | _ => false
  else if expected = "boolean" then
    match v with
    | .jbool _ => true
    | _ => false
  else if expected = "object" then
    match v with
    | .jobj _ => true
    | _ => false
  else if expected = "array" then
    match v with
    | .jarr _ => true
    | _ => false
  else if expected = "null" then
    match v with
    | .jnull => true
    | _ => false
  else true

/-- The `for req in required` loop: a missing key fails; a non-string
requirement is never a key of `params` (hence fails); an unhashable one
(`list`/`dict`) would raise `TypeError` (`none`). -/
def checkRequiredLoop (params : List (String × JValue)) :
    List JValue → Option Bool
  | [] => some true
  | req :: rest =>
    match req with
    | .jstr s =>
      if s ∈ keysOf params then checkRequiredLoop params rest else some false
    | .jarr _ => none
    | .jobj _ => none
    | _ => some false

/-- The `for key, value in params.items()` loop: only a truthy string
under `"type"` in an object-valued property triggers `_check_type`; a
non-object property value makes `.get` raise (`none`). -/
def checkParamsLoop (properties : List (String × JValue)) :
    List (String × JValue) → Option Bool
  | [] => some true
  | (k, v) :: rest =>
    match properties.lookup k with
    | none => checkParamsLoop properties rest
    | some (.jobj prop) =>
      match prop.lookup "type" with
      | some (.jstr ty) =>
        if ty ≠ "" ∧ checkType v ty = false then some false
        else checkParamsLoop properties rest
      | _ => checkParamsLoop properties rest
    | some _ => none

/-- `Tool.validate_params`.  An empty (or defaulted) `inputSchema` is
falsy in Python, so validation short-circuits to `True`. -/
def Tool.validateParams (t : Tool) (params : List (String × JValue)) :
    Option Bool :=
  match t.inputSchema with
  | [] => some true
  | s0 :: srest =>
    match ((s0 :: srest).lookup "required").getD (.jarr []) with
    | .jarr required =>
      match checkRequiredLoop params required with
      | some true =>
        match ((s0 :: srest).lookup "properties").getD (.jobj []) with
        | .jobj properties => checkParamsLoop properties params
        | _ => none
      | r => r
    | _ => none

/-- The `Prompt` dataclass. -/
structure Prompt where
  name : String
  description : Option String := none
  arguments : List (List (String × JValue)) := []

/-- The `Resource` dataclass. -/
structure Resource where
  uri : String
  name : String
  description : Option String := none
  mime_type : Option String := none

/-- `ServerCapabilities`. -/
structure ServerCapabilities where
  tools : List Tool := []
  prompts : List Prompt := []
  resources : List Resource := []

/-- `ServerCapabilities.get_tool`: first tool with the given name. -/
def ServerCapabilities.getTool (c : ServerCapabilities) (name : String) :
    Option Tool :=
  c.tools.find? (fun t => t.name == name)

/-- `ServerCapabilities.get_prompt`. -/
def ServerCapabilities.getPrompt (c : ServerCapabilities) (name : String) :
    Option Prompt :=
  c.prompts.find? (fun p => p.name == name)

/-- `ServerCapabilities.get_resource`. -/
def ServerCapabilities.getResource (c : ServerCapabilities) (uri : String) :
    Option Resource :=
  c.resources.find? (fun r => r.uri == uri)

/-- The `self._capabilities` mapping of `CapabilityRegistry`. -/
abbrev Registry := List (String × ServerCapabilities)

/-- The errors raised by the registry. -/
inductive RegErr where
  | toolNotFound (target : String)
  | ambiguousTool (target : String) (servers : List String)
  | promptNotFound (target : String)
  | ambiguousPrompt (target : String) (servers : List String)
  | resourceNotFound (target : String)
  | invalidParams (tool server : String)
deriving DecidableEq

/-- `server.tool` splitting: `tool_name.split('.', 1)`. -/
def splitQualified (name : String) : String × String :=
  (String.mk (name.data.takeWhile (fun c => c != '.')),
   String.mk ((name.data.dropWhile (fun c => c != '.')).drop 1))

/-- `CapabilityRegistry.find_tool`. -/
def findTool (reg : Registry) (tool_name : String) :
    Except RegErr (String × Tool) :=
  if '.' ∈ tool_name.data then
    let server_name := (splitQualified tool_name).1
    let actual := (splitQualified tool_name).2
    match reg.lookup server_name with
    | some caps =>
      match caps.getTool actual with
      | some tool => .ok (server_name, tool)
      | none => .error (.toolNotFound tool_name)
    | none => .error (.toolNotFound tool_name)
  else
    match reg.filterMap
        (fun p => (p.2.getTool tool_name).map (fun t => (p.1, t))) with
    | [] => .error (.toolNotFound tool_name)
    | [m] => .ok m
    | ms => .error (.ambiguousTool tool_name (ms.map Prod.fst))

/-- `CapabilityRegistry.find_prompt`. -/
def findPrompt (reg : Registry) (prompt_name : String) :
    Except RegErr (String × Prompt) :=
  if '.' ∈ prompt_name.data then
    let server_name := (splitQualified prompt_name).1
    let actual := (splitQualified prompt_name).2
    match reg.lookup server_name with
    | some caps =>
      match caps.getPrompt actual with
      | some p => .ok (server_name, p)
      | none => .error (.promptNotFound prompt_name)
    | none => .error (.promptNotFound prompt_name)
  else
    match reg.filterMap
        (fun p => (p.2.getPrompt prompt_name).map (fun q => (p.1, q))) with
    | [] => .error (.promptNotFound prompt_name)
    | [m] => .ok m
    | ms => .error (.ambiguousPrompt prompt_name (ms.map Prod.fst))

/-- `CapabilityRegistry.validate_tool_params`; the outer `Option` is an
exception escaping `validate_params` on a malformed schema. -/
def validateToolParams (reg : Registry) (tool_name : String)
    (params : List (String × JValue)) :
    Option (Except RegErr (String × Bool)) :=
  match findTool reg tool_name with
  | .error e => some (.error e)
  | .ok (server_name, tool) =>
    match tool.validateParams params with
    | none => none
    | some true => some (.ok (server_name, true))
    | some false => some (.error (.invalidParams tool_name server_name))

/-- C10: a tool whose `inputSchema` is the empty object (the dataclass
default, covering an absent schema) accepts every argument dictionary:
`validate_params` returns `True` for all inputs, and a tool call routed
through `validate_tool_params` can never fail with a validation error. -/
theorem claim_C10_empty_schema_accepts (t : Tool)
    (h : t.inputSchema = []) :
    (∀ params, t.validateParams params = some true) ∧
    (∀ reg tool_name server_name params,
      findTool reg tool_name = .ok (server_name, t) →
      validateToolParams reg tool_name params = some (.ok (server_name, true))) := by
  have hval : ∀ params, t.validateParams params = some true := by
    intro params
    unfold Tool.validateParams
    rw [h]
  refine ⟨hval, ?_⟩
  intro reg tool_name server_name params hfind
  unfold validateToolParams
  rw [hfind]
  simp only [hval params]

/-- Witness for C10: the `calc.add` tool with empty schema accepts a
params dictionary of any shape. -/
theorem claim_C10_empty_schema_accepts_witness :
    (Tool.validateParams ⟨"add", none, [], none, none, none⟩
      [("a", .jstr "two"), ("b", .jnull)] = some true) ∧
    validateToolParams [("calc", ⟨[⟨"add", none, [], none, none, none⟩], [], []⟩)]
      "add" [("a", .jstr "two"), ("b", .jnull)] =
      some (.ok ("calc", true)) := by
  have h := claim_C10_empty_schema_accepts ⟨"add", none, [], none, none, none⟩ rfl
  exact ⟨h.1 [("a", .jstr "two"), ("b", .jnull)],
    h.2 [("calc", ⟨[⟨"add", none, [], none, none, none⟩], [], []⟩)] "add" "calc"
      [("a", .jstr "two"), ("b", .jnull)] rfl⟩

/-! ### `router.py` — prompt routing and the cache key (claim C6)

`route_prompt_request` is modelled on its success path: the cache probe,
the registry lookup, the Ready check, and the dispatch whose reply is an
oracle.  Crucially the cache key is built on line 124 from the
caller-supplied `prompt_name`, before any name resolution. -/

/-- `ServerState` of `types.py`. -/
inductive ServerState where
  | starting
  | ready
  | unavailable
  | shutdown
deriving DecidableEq

/-- The cache key of `route_prompt_request` line 124:
`f"prompt:{prompt_name}:{arguments}"` with the *caller-supplied* name
and the printed arguments. -/
def promptCacheKey (prompt_name args : String) : String :=
  "prompt:" ++ prompt_name ++ ":" ++ args

/-- `tool_name.split('.')[-1]`: the part after the last dot. -/
def lastComponent (name : String) : String :=
  String.mk (((name.data.reverse.takeWhile (fun c => c != '.'))).reverse)

/-- Errors surfaced by the router. -/
inductive RouteErr where
  | routing (e : RegErr)
  | serverUnavailable (server : String)
deriving DecidableEq

/-- `RequestRouter.route_prompt_request`, success-path embedding: probe
the cache under `promptCacheKey`, resolve the prompt, require the owning
server to be `READY`, dispatch (the child's reply is `oracle server
prompt`), and store the result under the same key with `ttl=300`.
The outer `Option` is the `StopIteration` of `Cache.set` (impossible for
`max_size ≥ 1`). -/
def routePromptRequest (cache : Cache) (now : ℚ) (reg : Registry)
    (states : List (String × ServerState)) (oracle : String → String → String)
    (prompt_name args : String) :
    Option (Except RouteErr (String × Cache)) :=
  match (cache.get now (promptCacheKey prompt_name args)).1 with
  | some cached =>
    some (.ok (cached, (cache.get now (promptCacheKey prompt_name args)).2))
  | none =>
    match findPrompt reg prompt_name with
    | .error e => some (.error (.routing e))
    | .ok (server_name, _) =>
      match states.lookup server_name with
      | none => some (.error (.serverUnavailable server_name))
      | some st =>
        if st ≠ ServerState.ready then
          some (.error (.serverUnavailable server_name))
        else
          match ((cache.get now (promptCacheKey prompt_name args)).2).set now
              (promptCacheKey prompt_name args)
              (oracle server_name (lastComponent prompt_name)) (some 300) with
          | some cache2 =>
            some (.ok (oracle server_name (lastComponent prompt_name), cache2))
          | none => none

theorem mem_keys_of_set {c c2 : Cache} {now : ℚ} {key value : String}
    {ttl : Option ℚ} (h : c.set now key value ttl = some c2) :
    key ∈ c2.keys := by
  unfold Cache.set at h
  by_cases hcond : c.max_size ≤ c.entries.length ∧ c.entries.lookup key = none
  · rw [if_pos hcond] at h
    cases hes : c.entries with
    | nil =>
      rw [hes] at h
      exact absurd h (by simp)
    | cons p t =>
      rw [hes] at h
      injection h with h
      rw [← h]
      show key ∈ keysOf (touchEntry t key _)
      rw [keysOf_touchEntry]
      exact List.mem_append_right _ (by simp)
  · rw [if_neg hcond] at h
    injection h with h
    rw [← h]
    show key ∈ keysOf (touchEntry c.entries key _)
    rw [keysOf_touchEntry]
    exact List.mem_append_right _ (by simp)

/-- C6 counterexample: with server `srv` owning prompt `hello` and the
caller using the bare name, the routed call caches its result under
`prompt:hello:` — not under the qualified `prompt:srv.hello:` — and
`invalidate_server "srv"` does not remove the entry. -/
theorem claim_C6_counterexample :
    routePromptRequest (Cache.empty 10 300) 0
        [("srv", ⟨[], [⟨"hello", none, []⟩], []⟩)] [("srv", .ready)]
        (fun _ _ => "payload") "hello" "" =
      some (.ok ("payload",
        ⟨10, 300, [(promptCacheKey "hello" "", ⟨"payload", 0, 300⟩)]⟩)) ∧
    promptCacheKey "hello" "" ≠ promptCacheKey "srv.hello" "" ∧
    promptCacheKey "hello" "" ∈
      ((⟨10, 300, [(promptCacheKey "hello" "", ⟨"payload", 0, 300⟩)]⟩ :
        Cache).invalidateServer "srv").keys := by
  refine ⟨rfl, by decide, ?_⟩
  rw [Cache.keys_def]
  decide

/-- C6 as amended: `route_prompt_request` probes and stores under the
single key `prompt:{name-as-passed}:{args}`; when the caller passes the
qualified `server.prompt` name that key carries the `prompt:{server}.`
prefix and `invalidate_server(server)` removes every such entry, but a
bare-name call produces a key that `invalidate_server` does not match. -/
theorem claim_C6_prompt_cache_key (server p args : String) (c : Cache) :
    (∀ cache now reg states oracle result cache2,
      routePromptRequest cache now reg states oracle
          (server ++ "." ++ p) args = some (.ok (result, cache2)) →
      (promptCacheKey (server ++ "." ++ p) args ∈ cache.keys ∨
        promptCacheKey (server ++ "." ++ p) args ∈ cache2.keys)) ∧
    promptCacheKey (server ++ "." ++ p) args ∉
      (c.invalidateServer server).keys := by
  constructor
  · intro cache now reg states oracle result cache2 hrun
    unfold routePromptRequest at hrun
    split at hrun
    · rename_i cached hprobe
      left
      have hl : cache.entries.lookup
          (promptCacheKey (server ++ "." ++ p) args) ≠ none := by
        intro hc
        rw [@Cache.get_eq_miss _ now _ hc] at hprobe
        simp at hprobe
      rw [Cache.keys_def, ← lookup_isSome_iff, Option.isSome_iff_ne_none]
      exact hl
    · rename_i hprobe
      right
      split at hrun
      · simp at hrun
      · rename_i server_name prm hfind
        split at hrun
        · simp at hrun
        · rename_i st hst
          split at hrun
          · simp at hrun
          · rename_i hready
            split at hrun
            · rename_i cacheB hset
              injection hrun with hrun
              injection hrun with hrun
              injection hrun with h1 h2
              rw [← h2]
              exact mem_keys_of_set hset
            · simp at hrun
  · intro hc
    unfold Cache.invalidateServer at hc
    rw [Cache.keys_def] at hc
    simp only [keysOf] at hc
    obtain ⟨kv, hkv, hfst⟩ := List.mem_map.1 hc
    have hmem := List.of_mem_filter hkv
    have hpre : strStarts (promptCacheKey (server ++ "." ++ p) args)
        ("prompt:" ++ server ++ ".") = true := by
      unfold strStarts promptCacheKey
      have hdata : ("prompt:" ++ (server ++ "." ++ p) ++ ":" ++ args).data =
          ("prompt:" ++ server ++ ".").data ++ (p ++ ":" ++ args).data := by
        simp [String.data_append]
      rw [hdata]
      exact isPrefList_append_self _ _
    rw [hfst] at hmem
    rw [hpre] at hmem
    simp at hmem

theorem claim_C6_prompt_cache_key_witness :
    promptCacheKey ("srv" ++ "." ++ "hello") "" ∉
      ((Cache.empty 10 300).invalidateServer "srv").keys :=
  (claim_C6_prompt_cache_key "srv" "hello" "" (Cache.empty 10 300)).2

/-! ### `router.py` — retry loop traces (claims C1 and C5)

`execute_with_retry` is embedded as a trace-producing function.  A
per-attempt oracle says how the child behaves on each attempt; the model
emits one event for every observable side effect, in program order: the
frame written by `send_request` (tagged with the server state current at
that moment), the metric records, state writes, the registry
unregistration, and the back-off sleeps. -/

/-- `RequestRouter._retry_config` (router.py `__init__`). -/
structure RetryConfig where
  initial_delay : ℚ := 1
  max_delay : ℚ := 30
  max_retries : Nat := 3
  exponential_base : ℚ := 2

/-- How the child behaves on one attempt of `execute_with_timeout`:
a result reply after `lat` seconds, a timeout, or another exception
with message `msg`. -/
inductive AttemptOutcome where
  | success (r : String) (lat : ℚ)
  | timeout
  | exn (msg : String)

/-- Observable events of a routed call, in program order. -/
inductive REvent where
  | send (attempt : Nat) (st : ServerState)
  | record (latency : ℚ) (success : Bool)
  | setState (st : ServerState)
  | unregister
  | sleep (d : ℚ)
deriving DecidableEq

/-- Final disposition of `execute_with_retry`. -/
inductive RetryResult where
  | ok (r : String)
  | unavailable
  | otherErr (msg : String)
deriving DecidableEq

def containsSub (needle hay : Str) : Bool :=
  match hay with
  | [] => needle.isEmpty
  | _ :: t => isPrefList needle hay || containsSub needle t

/-- `"process" in str(e).lower() or "connection" in str(e).lower()`. -/
def crashIndicator (msg : String) : Bool :=
  containsSub "process".data (msg.data.map Char.toLower) ||
    containsSub "connection".data (msg.data.map Char.toLower)

/-- The `for attempt in range(max_retries + 1)` loop of
`execute_with_retry`, one constructor step per remaining iteration.
Events per branch follow the source line by line: `execute_with_timeout`
writes the frame unconditionally and on success records the measured
latency; back in the loop a second success metric is recorded with
latency `0.0` (the inline comment "Will be updated by
execute_with_timeout" notwithstanding).  On `MCPTimeoutError` the state
is set to Unavailable, a failure metric with `latency=timeout` is
recorded, the server is unregistered, and — if attempts remain — the
loop sleeps and tries again, sending another frame.  Exhausting
`attemptsLeft` is the `# Should not reach here` raise. -/
def retryLoop (oracle : Nat → AttemptOutcome) (cfg : RetryConfig) (timeout : ℚ)
    (attempt : Nat) (attemptsLeft : Nat) (st : ServerState) (delay : ℚ) :
    List REvent × ServerState × RetryResult :=
  match attemptsLeft with
  | 0 => ([], st, .unavailable)
  | left + 1 =>
    match oracle attempt with
    | .success r lat =>
      ([.send attempt st, .record lat true, .record 0 true], st, .ok r)
    | .timeout =>
      if attempt < cfg.max_retries then
        match retryLoop oracle cfg timeout (attempt + 1) left
            ServerState.unavailable
            (min (delay * cfg.exponential_base) cfg.max_delay) with
        | (evs, st2, res) =>
          (.send attempt st :: .setState .unavailable ::
            .record timeout false :: .unregister :: .sleep delay :: evs,
            st2, res)
      else
        ([.send attempt st, .setState .unavailable, .record timeout false,
          .unregister], .unavailable, .unavailable)
    | .exn msg =>
      if crashIndicator msg then
        ([.send attempt st, .record 0 false, .setState .unavailable,
          .unregister], .unavailable, .unavailable)
      else
        ([.send attempt st, .record 0 false], st, .otherErr msg)

/-- A routed call (`route_tool_call` etc.): the Ready check happens once,
before `execute_with_retry`; the loop itself never consults the state. -/
def routedCall (oracle : Nat → AttemptOutcome) (cfg : RetryConfig)
    (timeout : ℚ) (st : ServerState) :
    List REvent × ServerState × RetryResult :=
  if st ≠ ServerState.ready then ([], st, .unavailable)
  else retryLoop oracle cfg timeout 0 (cfg.max_retries + 1) st
    cfg.initial_delay

/-- The frames written to the child during a trace, with the server
state current at each write. -/
def sendsOf (evs : List REvent) : List (Nat × ServerState) :=
  evs.filterMap (fun e => match e with
    | .send a st => some (a, st)
    | _ => none)

@[simp] theorem sendsOf_nil : sendsOf [] = [] := rfl

@[simp] theorem sendsOf_send (a : Nat) (st : ServerState) (t : List REvent) :
    sendsOf (.send a st :: t) = (a, st) :: sendsOf t := rfl

@[simp] theorem sendsOf_setState (s : ServerState) (t : List REvent) :
    sendsOf (.setState s :: t) = sendsOf t := rfl

@[simp] theorem sendsOf_record (l : ℚ) (b : Bool) (t : List REvent) :
    sendsOf (.record l b :: t) = sendsOf t := rfl

@[simp] theorem sendsOf_unregister (t : List REvent) :
    sendsOf (.unregister :: t) = sendsOf t := rfl

@[simp] theorem sendsOf_sleep (d : ℚ) (t : List REvent) :
    sendsOf (.sleep d :: t) = sendsOf t := rfl

theorem retryLoop_timeout_sends (oracle : Nat → AttemptOutcome)
    (cfg : RetryConfig) (timeout : ℚ) (hor : ∀ n, oracle n = .timeout) :
    ∀ left attempt st delay, attempt + left = cfg.max_retries + 1 →
    attempt ≤ cfg.max_retries →
    sendsOf (retryLoop oracle cfg timeout attempt left st delay).1 =
      (attempt, st) ::
        (List.range' (attempt + 1) (cfg.max_retries - attempt)).map
          (fun a => (a, ServerState.unavailable)) ∧
    (retryLoop oracle cfg timeout attempt left st delay).2.2 =
      RetryResult.unavailable := by
  intro left
  induction left with
  | zero =>
    intro attempt st delay hleft hle
    omega
  | succ left ih =>
    intro attempt st delay hleft hle
    rw [retryLoop, hor attempt]
    by_cases hlt : attempt < cfg.max_retries
    · rw [if_pos hlt]
      have hleft2 : attempt + 1 + left = cfg.max_retries + 1 := by omega
      obtain ⟨ihs, ihr⟩ := ih (attempt + 1) ServerState.unavailable
        (min (delay * cfg.exponential_base) cfg.max_delay) hleft2 (by omega)
      cases hrec : retryLoop oracle cfg timeout (attempt + 1) left
          ServerState.unavailable
          (min (delay * cfg.exponential_base) cfg.max_delay) with
      | mk evs rest =>
        rw [hrec] at ihs ihr
        refine ⟨?_, by simpa using ihr⟩
        simp only [sendsOf_send, sendsOf_setState, sendsOf_record,
          sendsOf_unregister, sendsOf_sleep]
        rw [show sendsOf evs = sendsOf (evs, rest).1 from rfl, ihs]
        have hrange : cfg.max_retries - attempt =
            (cfg.max_retries - (attempt + 1)) + 1 := by omega
        rw [hrange, List.range'_succ]
        simp
    · rw [if_neg hlt]
      have hmax : attempt = cfg.max_retries := by omega
      constructor
      · simp only [sendsOf_send, sendsOf_setState, sendsOf_record,
          sendsOf_unregister, sendsOf_nil]
        rw [hmax]
        simp
      · rfl

/-- C1 counterexample: with the default retry config and a child that
times out on every attempt, the routed call writes a frame on attempt 1
while the server state is already Unavailable — and the unregistration
happened before that write.  The original claim says no frame is sent
after the server is Unavailable and unregistered. -/
theorem claim_C1_counterexample :
    REvent.send 1 ServerState.unavailable ∈
      (routedCall (fun _ => .timeout) {} 30 .ready).1 ∧
    (routedCall (fun _ => .timeout) {} 30 .ready).1.take 6 =
      [.send 0 .ready, .setState .unavailable, .record 30 false,
        .unregister, .sleep 1, .send 1 .unavailable] ∧
    (routedCall (fun _ => .timeout) {} 30 .ready).2.2 =
      RetryResult.unavailable := by
  refine ⟨?_, by decide, by decide⟩
  decide

/-- C1 as amended: `execute_with_retry` never re-reads the server state.
After the first timeout marks the server Unavailable and unregisters it,
every one of the remaining `max_retries` attempts still writes a frame
to the child — in state Unavailable — and the call ends with
server-unavailable.  The frames written are exactly attempts
`0, 1, …, max_retries`, the first in Ready, all later ones in
Unavailable. -/
theorem claim_C1_no_ready_recheck (oracle : Nat → AttemptOutcome)
    (cfg : RetryConfig) (timeout : ℚ) (hor : ∀ n, oracle n = .timeout) :
    sendsOf (routedCall oracle cfg timeout .ready).1 =
      (0, ServerState.ready) ::
        (List.range' 1 cfg.max_retries).map
          (fun a => (a, ServerState.unavailable)) ∧
    (routedCall oracle cfg timeout .ready).2.2 = RetryResult.unavailable := by
  unfold routedCall
  rw [if_neg (by simp)]
  simpa using retryLoop_timeout_sends oracle cfg timeout hor
    (cfg.max_retries + 1) 0 .ready cfg.initial_delay (by omega) (by omega)

theorem claim_C1_no_ready_recheck_witness :
    sendsOf (routedCall (fun _ => .timeout) {} 30 .ready).1 =
      [(0, ServerState.ready), (1, .unavailable), (2, .unavailable),
        (3, .unavailable)] ∧
    (routedCall (fun _ => .timeout) {} 30 .ready).2.2 =
      RetryResult.unavailable := by
  obtain ⟨h1, h2⟩ := claim_C1_no_ready_recheck (fun _ => .timeout) {} 30
    (fun _ => rfl)
  exact ⟨by rw [h1]; decide, h2⟩

/-! #### Metrics fold (claim C5) -/

/-- `MetricsData` of `types.py`; `min_latency` starts at `float('inf')`,
modelled as `none`. -/
structure MetricsData where
  request_count : Nat := 0
  success_count : Nat := 0
  error_count : Nat := 0
  total_latency : ℚ := 0
  min_latency : Option ℚ := none
  max_latency : ℚ := 0
  latencies : List ℚ := []
deriving DecidableEq

/-- `MetricsCollector.record_request` for one server. -/
def recordRequest (m : MetricsData) (latency : ℚ) (success : Bool) :
    MetricsData :=
  { request_count := m.request_count + 1
    success_count := m.success_count + (if success then 1 else 0)
    error_count := m.error_count + (if success then 0 else 1)
    total_latency := m.total_latency + latency
    min_latency := some (match m.min_latency with
      | none => latency
      | some x => min x latency)
    max_latency := max m.max_latency latency
    latencies :=
      if 1000 < m.latencies.length + 1 then
        ((m.latencies ++ [latency]).drop (m.latencies.length + 1 - 1000))
      else m.latencies ++ [latency] }

/-- Replay the metric records of a trace into the collector. -/
def collectMetrics (evs : List REvent) : MetricsData :=
  evs.foldl (fun m e => match e with
    | .record lat success => recordRequest m lat success
    | _ => m) {}

/-- C5: the double-record slip.  A routed call that succeeds on its
first attempt with measured latency `lat` produces exactly the trace
`[send, record lat true, record 0 true]`: `execute_with_timeout` records
the real latency, then `execute_with_retry` records a second success
with hardcoded `latency=0.0`.  The collector therefore reports 2
requests and 2 successes for this single call, with `0` appended to the
latency list — not the single request with its measured latency that the
spec promises. -/
theorem claim_C5_single_success_metrics (oracle : Nat → AttemptOutcome)
    (cfg : RetryConfig) (timeout lat : ℚ) (r : String)
    (hor : oracle 0 = .success r lat) :
    (routedCall oracle cfg timeout .ready).1 =
      [.send 0 .ready, .record lat true, .record 0 true] ∧
    (routedCall oracle cfg timeout .ready).2.2 = RetryResult.ok r ∧
    (collectMetrics (routedCall oracle cfg timeout .ready).1).request_count
      = 2 ∧
    (collectMetrics (routedCall oracle cfg timeout .ready).1).success_count
      = 2 ∧
    (collectMetrics (routedCall oracle cfg timeout .ready).1).latencies =
      [lat, 0] := by
  have hcall : routedCall oracle cfg timeout .ready =
      ([.send 0 .ready, .record lat true, .record 0 true], .ready, .ok r) := by
    unfold routedCall
    rw [if_neg (by simp), retryLoop, hor]
  rw [hcall]
  refine ⟨rfl, rfl, ?_, ?_, ?_⟩ <;>
    simp [collectMetrics, recordRequest]

theorem claim_C5_single_success_metrics_witness :
    (routedCall (fun _ => .success "5" (1/2)) {} 30 .ready).1 =
      [.send 0 .ready, .record (1/2) true, .record 0 true] ∧
    (routedCall (fun _ => .success "5" (1/2)) {} 30 .ready).2.2 =
      RetryResult.ok "5" ∧
    (collectMetrics
      (routedCall (fun _ => .success "5" (1/2)) {} 30 .ready).1).request_count
      = 2 ∧
    (collectMetrics
      (routedCall (fun _ => .success "5" (1/2)) {} 30 .ready).1).success_count
      = 2 ∧
    (collectMetrics
      (routedCall (fun _ => .success "5" (1/2)) {} 30 .ready).1).latencies =
      [1/2, 0] :=
  claim_C5_single_success_metrics (fun _ => .success "5" (1/2)) {} 30 (1/2)
    "5" rfl

/-! ### `host.py` `_start_server` — the Ready/registered window (claim C2)

`_start_server` is straight-line code: spawn the process, run
`initialize_server` (which ends by assigning `state = READY`), fetch the
tool/prompt/resource lists with further requests, and only then call
`registry.register_server`.  The view below tracks, per step, the
server's state, whether the init handshake has completed, and whether
its capabilities are registered. -/

structure HostView where
  state : ServerState
  initDone : Bool
  registered : Bool
deriving DecidableEq

/-- The successive phases of `_start_server` (host.py lines 146-190). -/
inductive StartStep where
  | spawn
  | doInit
  | fetchCaps
  | registerCaps
deriving DecidableEq

/-- Effect of each phase on the view.  `create_server` leaves the new
process in `STARTING`; `initialize_server` completes the
`initialize` → `initialized` handshake and assigns `READY` (server.py
line 391); the capability fetches change no state; `register_server`
records the registry entry. -/
def applyStart (v : HostView) (s : StartStep) : HostView :=
  match s with
  | .spawn => { v with state := .starting }
  | .doInit => { state := .ready, initDone := true, registered := v.registered }
  | .fetchCaps => v
  | .registerCaps => { v with registered := true }

/-- The phases in source order. -/
def startSeq : List StartStep := [.spawn, .doInit, .fetchCaps, .registerCaps]

/-- Every view reached while `_start_server` runs, starting from a
not-yet-spawned server. -/
def startStates : List HostView :=
  startSeq.scanl applyStart ⟨.shutdown, false, false⟩

/-- C2 counterexample: right after `initialize_server` returns (and all
through the capability fetches) the server is `READY` with the handshake
complete, yet its registry entry does not exist — the view
`⟨ready, true, false⟩` is reached.  The claimed iff between Ready and
registered fails on this window; only the registered → Ready direction
holds. -/
theorem claim_C2_counterexample :
    (⟨.ready, true, false⟩ : HostView) ∈ startStates ∧
    ((⟨.ready, true, false⟩ : HostView).state = .ready ∧
      (⟨.ready, true, false⟩ : HostView).registered = false) := by
  decide

/-- C2 as amended: along `_start_server`, Ready coincides with the
completed `initialize` → `initialized` handshake, and a registered
server is always Ready; but the converse fails — a Ready, unregistered
view is reached (between the `READY` assignment and
`register_server`). -/
theorem claim_C2_ready_iff_registered :
    (∀ v ∈ startStates,
      (v.state = ServerState.ready ↔ v.initDone = true) ∧
      (v.registered = true → v.state = ServerState.ready)) ∧
    ∃ v ∈ startStates, v.state = ServerState.ready ∧ v.registered = false := by
  decide

/-! ### `server.py` `send_request` — write-then-insert order (claim C3)

`send_request` validates `msg.get("id")`, then calls `send_message`
(which writes the encoded frame to the child's stdin), and only then
`wait_for_response`, whose first actions are to create the future and
insert it into `_pending_responses[msg_id]` before awaiting it. -/

inductive SendEv where
  | writeFrame (id : String)
  | insertSlot (id : String)
  | awaitSlot (id : String) (timeout : ℚ)
deriving DecidableEq

inductive SendErr where
  | protocolError
deriving DecidableEq

/-- `ServerProcess.send_request` as an event trace.  A missing or falsy
(empty) id raises `ProtocolError`; otherwise the frame is written, then
the completion slot is inserted, then the slot is awaited under the
timeout. -/
def sendRequest (msgId : Option String) (timeout : ℚ) :
    List SendEv × Option SendErr :=
  match msgId with
  | none => ([], some .protocolError)
  | some i =>
    if i = "" then ([], some .protocolError)
    else ([.writeFrame i, .insertSlot i, .awaitSlot i timeout], none)

/-- C3 counterexample: for the request with id `"42"` the frame write
occurs at position 0 of the trace and the slot insertion only at
position 1 — the code writes the frame before the completion slot
exists, not after as claimed. -/
theorem claim_C3_counterexample :
    (sendRequest (some "42") 30).1 =
      [.writeFrame "42", .insertSlot "42", .awaitSlot "42" 30] ∧
    (sendRequest (some "42") 30).1.indexOf (.writeFrame "42") <
      (sendRequest (some "42") 30).1.indexOf (.insertSlot "42") := by
  constructor
  · rfl
  · decide

/-- C3 as amended: for every non-falsy id the trace is exactly
frame-write, then slot-insert, then await — the slot is created *after*
the frame is on the wire, and the await still happens last under the
given timeout. -/
theorem claim_C3_send_request_order (i : String) (timeout : ℚ)
    (h : i ≠ "") :
    (sendRequest (some i) timeout).1 =
      [.writeFrame i, .insertSlot i, .awaitSlot i timeout] ∧
    (sendRequest (some i) timeout).2 = none := by
  simp only [sendRequest]
  rw [if_neg h]
  exact ⟨rfl, rfl⟩

theorem claim_C3_send_request_order_witness :
    (sendRequest (some "42") 30).1 =
      [.writeFrame "42", .insertSlot "42", .awaitSlot "42" 30] ∧
    (sendRequest (some "42") 30).2 = none :=
  claim_C3_send_request_order "42" 30 (by decide)
